import Mathlib

/-!
Verification of the chunk-assignment core of the rollup bundler
(`src/utils/chunkAssignment.ts`).

The TypeScript source is shallowly embedded below.  Modules are
represented by natural-number identifiers; a `ModuleGraph` packages the
per-module observables (`dependencies`, `getDependenciesToBeIncluded`,
`dynamicImports` resolutions, `includedDynamicImporters`,
`implicitlyLoadedBefore`/`After`, `hasEffects`, source size).  JavaScript
`Set`/`Map` objects, whose iteration order is insertion order and which
are iterated live (additions made during iteration are picked up), are
embedded as insertion-ordered lists with an explicit worklist; those
recursions carry a fuel parameter for termination.  JavaScript's
`Infinity` distance is `⊤ : WithTop Nat`.  Entry signatures are
`List Char` over the alphabet `{'X', '_'}`, as in the source.
-/

/-- Insert an element at the end of an insertion-ordered set unless
it is already present (JavaScript `Set.prototype.add`). -/
def insertIfAbsent (x : Nat) (l : List Nat) : List Nat :=
  if l.contains x then l else l ++ [x]

/-- Deduplicate keeping first occurrences and their order
(JavaScript `new Set(iterable)`). -/
def dedupList (l : List Nat) : List Nat :=
  l.foldl (fun acc x => insertIfAbsent x acc) []

/-- `CHAR_DEPENDENT` of the source. -/
def CHAR_DEPENDENT : Char := 'X'

/-- `CHAR_INDEPENDENT` of the source. -/
def CHAR_INDEPENDENT : Char := '_'

/-- The signature character recording dependence as a bit
(`'X' ↦ true`, anything else ↦ `false`). -/
def sigBit (c : Char) : Bool := c = CHAR_DEPENDENT

/-- The signature built for a module in `getChunkModulesBySignature`:
one position per entry of `allEntries`, `'X'` when the module's
assigned-entry set contains that entry and `'_'` otherwise. -/
def buildSignature (allEntries : List Nat) (assignedEntries : List Nat) : List Char :=
  allEntries.map (fun e => if assignedEntries.contains e then CHAR_DEPENDENT else CHAR_INDEPENDENT)

/-- `mergeSignatures` of the source: iterate over the positions of the
first (source) signature and emit `'X'` exactly when either signature
holds `'X'` there.  An out-of-range read of the second signature
(`charCodeAt` returning `NaN` in JavaScript) never equals `'X'`,
which the `Option`-valued head models. -/
def mergeSignatures : List Char → List Char → List Char
  | [], _ => []
  | s :: ss, tgt =>
    (if s = CHAR_DEPENDENT ∨ tgt.head? = some CHAR_DEPENDENT then CHAR_DEPENDENT
     else CHAR_INDEPENDENT) :: mergeSignatures ss tgt.tail

/-- Loop of `getSignatureDistance`, walking both signatures in step and
carrying the accumulated distance; returns `⊤` (JavaScript `Infinity`)
as soon as `enforceSubset` is set and the source holds `'X'` at a
differing position. -/
def getSignatureDistanceAux (enforceSubset : Bool) : List Char → List Char → Nat → WithTop Nat
  | [], _, distance => (distance : WithTop Nat)
  | s :: ss, tgt, distance =>
    if some s = tgt.head? then getSignatureDistanceAux enforceSubset ss tgt.tail distance
    else if enforceSubset ∧ s = CHAR_DEPENDENT then ⊤
    else getSignatureDistanceAux enforceSubset ss tgt.tail (distance + 1)

/-- `getSignatureDistance` of the source. -/
def getSignatureDistance (sourceSignature targetSignature : List Char)
    (enforceSubset : Bool) : WithTop Nat :=
  getSignatureDistanceAux enforceSubset sourceSignature targetSignature 0

/-- The number of positions (of the first signature) at which two
signatures differ — the value `getSignatureDistance` counts when it
does not bail out with `Infinity`. -/
def countDiff : List Char → List Char → Nat
  | [], _ => 0
  | s :: ss, tgt => (if some s = tgt.head? then 0 else 1) + countDiff ss tgt.tail

/- ### Basic signature lemmas -/

theorem exists_getElem_eq_some {l : List Char} {n : Nat} (h : n < l.length) :
    ∃ x, l[n]? = some x :=
  ⟨l[n], List.getElem?_eq_some_iff.2 ⟨h, rfl⟩⟩

theorem length_mergeSignatures (a b : List Char) :
    (mergeSignatures a b).length = a.length := by
  induction a generalizing b with
  | nil => simp [mergeSignatures]
  | cons s ss ih => simp [mergeSignatures, ih]

theorem getElem?_mergeSignatures (a b : List Char) (i : Nat) :
    (mergeSignatures a b)[i]? =
      a[i]?.map (fun s =>
        if s = CHAR_DEPENDENT ∨ b[i]? = some CHAR_DEPENDENT then CHAR_DEPENDENT
        else CHAR_INDEPENDENT) := by
  induction a generalizing b i with
  | nil => simp [mergeSignatures]
  | cons s ss ih =>
    cases i with
    | zero => cases b <;> simp [mergeSignatures]
    | succ i => cases b <;> simp [mergeSignatures, ih]

theorem mem_mergeSignatures (a b : List Char) :
    ∀ c ∈ mergeSignatures a b, c = CHAR_DEPENDENT ∨ c = CHAR_INDEPENDENT := by
  induction a generalizing b with
  | nil => simp [mergeSignatures]
  | cons s ss ih =>
    intro c hc
    simp only [mergeSignatures, List.mem_cons] at hc
    rcases hc with h | h
    · by_cases hX : s = CHAR_DEPENDENT ∨ b.head? = some CHAR_DEPENDENT
      · simp [hX] at h; exact Or.inl h
      · simp [hX] at h; exact Or.inr h
    · exact ih b.tail c h

/-- A finite subset-enforcing distance means every `'X'` of the first
signature is matched by an `'X'` of the second. -/
theorem gsdAux_ne_top_subset (a b : List Char) (acc : Nat)
    (h : getSignatureDistanceAux true a b acc ≠ ⊤) :
    ∀ i : Nat, a[i]? = some CHAR_DEPENDENT → b[i]? = some CHAR_DEPENDENT := by
  induction a generalizing b acc with
  | nil => intro i hi; simp at hi
  | cons s ss ih =>
    intro i hi
    by_cases heq : some s = b.head?
    · rw [getSignatureDistanceAux, if_pos heq] at h
      cases i with
      | zero =>
        simp at hi
        cases b with
        | nil => simp at heq
        | cons t ts => simp_all
      | succ i =>
        simp at hi
        have := ih b.tail acc h i hi
        cases b with
        | nil => simp at this
        | cons t ts => simpa using this
    · rw [getSignatureDistanceAux, if_neg heq] at h
      by_cases hX : s = CHAR_DEPENDENT
      · simp [hX] at h
      · simp only [hX, and_false, if_false] at h
        cases i with
        | zero => simp [hX] at hi
        | succ i =>
          simp at hi
          have := ih b.tail (acc + 1) h i hi
          cases b with
          | nil => simp at this
          | cons t ts => simpa using this

theorem gsdAux_self (a : List Char) (e : Bool) (acc : Nat) :
    getSignatureDistanceAux e a a acc = (acc : WithTop Nat) := by
  induction a generalizing acc with
  | nil => rfl
  | cons s ss ih => simpa [getSignatureDistanceAux] using ih acc

/-- A violating position (source `'X'` over target `'_'`) forces the
subset-enforcing distance to `Infinity`. -/
theorem gsdAux_top_of_violation (a b : List Char) (acc : Nat)
    (h : ∃ i : Nat, a[i]? = some CHAR_DEPENDENT ∧ b[i]? = some CHAR_INDEPENDENT) :
    getSignatureDistanceAux true a b acc = ⊤ := by
  induction a generalizing b acc with
  | nil => obtain ⟨i, hi, _⟩ := h; simp at hi
  | cons s ss ih =>
    obtain ⟨i, hi, hbi⟩ := h
    by_cases heq : some s = b.head?
    · rw [getSignatureDistanceAux, if_pos heq]
      cases i with
      | zero =>
        simp at hi; subst hi
        cases b with
        | nil => simp at heq
        | cons t ts =>
          simp at heq hbi
          rw [← heq] at hbi
          exact absurd hbi (by decide)
      | succ i =>
        apply ih
        cases b with
        | nil => simp at hbi
        | cons t ts => exact ⟨i, by simpa using hi, by simpa using hbi⟩
    · rw [getSignatureDistanceAux, if_neg heq]
      by_cases hX : s = CHAR_DEPENDENT
      · simp [hX]
      · simp only [hX, and_false, if_false]
        cases i with
        | zero => simp [hX] at hi
        | succ i =>
          apply ih
          cases b with
          | nil => simp at hbi
          | cons t ts => exact ⟨i, by simpa using hi, by simpa using hbi⟩

/-- Without a violating position and over the `{'X','_'}` alphabet of
equal-length signatures, the subset-enforcing distance is the plain
count of differing positions. -/
theorem gsdAux_count_of_no_violation (a b : List Char) (acc : Nat)
    (hlen : a.length = b.length)
    (hb : ∀ c ∈ b, c = CHAR_DEPENDENT ∨ c = CHAR_INDEPENDENT)
    (h : ∀ i : Nat, ¬(a[i]? = some CHAR_DEPENDENT ∧ b[i]? = some CHAR_INDEPENDENT)) :
    getSignatureDistanceAux true a b acc = ((acc + countDiff a b : Nat) : WithTop Nat) := by
  induction a generalizing b acc with
  | nil => simp [getSignatureDistanceAux, countDiff]
  | cons s ss ih =>
    cases b with
    | nil => simp at hlen
    | cons t ts =>
      have hlen' : ss.length = ts.length := by
        simp only [List.length_cons] at hlen
        omega
      have hb' : ∀ c ∈ ts, c = CHAR_DEPENDENT ∨ c = CHAR_INDEPENDENT :=
        fun c hc => hb c (List.mem_cons_of_mem _ hc)
      have h' : ∀ i : Nat, ¬(ss[i]? = some CHAR_DEPENDENT ∧ ts[i]? = some CHAR_INDEPENDENT) :=
        fun i => by simpa using h (i + 1)
      by_cases heq : some s = (t :: ts).head?
      · rw [getSignatureDistanceAux, if_pos heq]
        have hcd : countDiff (s :: ss) (t :: ts) = countDiff ss ts := by
          simp only [countDiff, List.tail_cons, if_pos heq, Nat.zero_add]
        rw [show (t :: ts).tail = ts from rfl, hcd]
        exact ih ts acc hlen' hb' h'
      · rw [getSignatureDistanceAux, if_neg heq]
        have hX : ¬(s = CHAR_DEPENDENT) := by
          intro hs
          have ht2 : t = CHAR_INDEPENDENT := by
            rcases hb t (List.mem_cons_self t ts) with h1 | h1
            · exfalso; apply heq; simp [hs, h1]
            · exact h1
          exact h 0 (by simp [hs, ht2])
        simp only [hX, and_false, if_false]
        have hcd : countDiff (s :: ss) (t :: ts) = 1 + countDiff ss ts := by
          simp only [countDiff, List.tail_cons, if_neg heq]
        rw [show (t :: ts).tail = ts from rfl, hcd]
        rw [ih ts (acc + 1) hlen' hb' h']
        congr 1
        omega

/- ### Claim C7 -/

/-- C7: for equal-length signatures over `{'X','_'}`, `mergeSignatures`
is commutative, associative, idempotent, and position-wise the bitwise
OR of the signatures under the encoding `'_' ↦ 0`, `'X' ↦ 1`. -/
theorem c7_merge_signature_laws (a b c : List Char)
    (hab : a.length = b.length) (hbc : b.length = c.length)
    (ha : ∀ x ∈ a, x = CHAR_DEPENDENT ∨ x = CHAR_INDEPENDENT) :
    mergeSignatures a b = mergeSignatures b a ∧
    mergeSignatures (mergeSignatures a b) c = mergeSignatures a (mergeSignatures b c) ∧
    mergeSignatures a a = a ∧
    ∀ i, sigBit ((mergeSignatures a b).getD i CHAR_INDEPENDENT) =
      (sigBit (a.getD i CHAR_INDEPENDENT) || sigBit (b.getD i CHAR_INDEPENDENT)) := by
  have hac : a.length = c.length := hab.trans hbc
  refine ⟨?_, ?_, ?_, ?_⟩
  · apply List.ext_getElem?
    intro n
    rw [getElem?_mergeSignatures, getElem?_mergeSignatures]
    rcases Nat.lt_or_ge n a.length with hn | hn
    · obtain ⟨x, hx⟩ := exists_getElem_eq_some (l := a) (n := n) (by omega)
      obtain ⟨y, hy⟩ := exists_getElem_eq_some (l := b) (n := n) (by omega)
      rw [hx, hy]
      simp only [Option.map_some']
      congr 1
      by_cases hxX : x = CHAR_DEPENDENT <;> by_cases hyX : y = CHAR_DEPENDENT <;>
        simp [hxX, hyX]
    · rw [List.getElem?_eq_none hn, List.getElem?_eq_none (hab ▸ hn)]
      all_goals rfl
  · apply List.ext_getElem?
    intro n
    rw [getElem?_mergeSignatures, getElem?_mergeSignatures, getElem?_mergeSignatures,
      getElem?_mergeSignatures]
    rcases Nat.lt_or_ge n a.length with hn | hn
    · obtain ⟨x, hx⟩ := exists_getElem_eq_some (l := a) (n := n) (by omega)
      obtain ⟨y, hy⟩ := exists_getElem_eq_some (l := b) (n := n) (by omega)
      obtain ⟨z, hz⟩ := exists_getElem_eq_some (l := c) (n := n) (by omega)
      rw [hx, hy, hz]
      simp only [Option.map_some']
      congr 1
      by_cases hxX : x = CHAR_DEPENDENT <;> by_cases hyX : y = CHAR_DEPENDENT <;>
        by_cases hzX : z = CHAR_DEPENDENT <;> simp [hxX, hyX, hzX]
    · rw [List.getElem?_eq_none hn]
      all_goals rfl
  · apply List.ext_getElem?
    intro n
    rw [getElem?_mergeSignatures]
    rcases Nat.lt_or_ge n a.length with hn | hn
    · obtain ⟨x, hx⟩ := exists_getElem_eq_some (l := a) (n := n) (by omega)
      rw [hx]
      simp only [Option.map_some']
      have hx2 : x ∈ a := List.getElem?_mem hx
      rcases ha x hx2 with h1 | h1 <;> simp [h1] <;> decide
    · rw [List.getElem?_eq_none hn]
      all_goals rfl
  · intro i
    have hg := getElem?_mergeSignatures a b i
    rcases Nat.lt_or_ge i a.length with hn | hn
    · obtain ⟨x, hx⟩ := exists_getElem_eq_some (l := a) (n := i) (by omega)
      obtain ⟨y, hy⟩ := exists_getElem_eq_some (l := b) (n := i) (by omega)
      rw [hx, hy] at hg
      rw [List.getD_eq_getElem?_getD, List.getD_eq_getElem?_getD,
        List.getD_eq_getElem?_getD, hg, hx, hy]
      simp only [Option.map_some, Option.getD_some]
      by_cases hxX : x = CHAR_DEPENDENT <;> by_cases hyX : y = CHAR_DEPENDENT <;>
        simp [hxX, hyX, sigBit, CHAR_DEPENDENT, CHAR_INDEPENDENT]
    · rw [List.getD_eq_getElem?_getD, List.getD_eq_getElem?_getD,
        List.getD_eq_getElem?_getD, hg]
      rw [List.getElem?_eq_none hn, List.getElem?_eq_none (hab ▸ hn)]
      simp [sigBit, CHAR_DEPENDENT, CHAR_INDEPENDENT]

/-- Witness for C7 at concrete signatures. -/
theorem c7_merge_signature_laws_witness :
    mergeSignatures ['X', '_'] ['_', 'X'] = mergeSignatures ['_', 'X'] ['X', '_'] :=
  (c7_merge_signature_laws ['X', '_'] ['_', 'X'] ['_', '_'] (by decide) (by decide)
    (by decide)).1

/- ### Claim C8 -/

/-- C8: the distance of a signature to itself is `0` for either value of
`enforceSubset`; with `enforceSubset` the distance is `Infinity` exactly
when the source holds an `'X'` over a `'_'` of the target, and otherwise
it is the count of differing positions. -/
theorem c8_distance_law (s t : List Char)
    (hlen : s.length = t.length)
    (ht : ∀ c ∈ t, c = CHAR_DEPENDENT ∨ c = CHAR_INDEPENDENT) :
    (∀ e, getSignatureDistance s s e = (0 : WithTop Nat)) ∧
    ((∃ i : Nat, s[i]? = some CHAR_DEPENDENT ∧ t[i]? = some CHAR_INDEPENDENT) →
      getSignatureDistance s t true = ⊤) ∧
    ((∀ i : Nat, ¬(s[i]? = some CHAR_DEPENDENT ∧ t[i]? = some CHAR_INDEPENDENT)) →
      getSignatureDistance s t true = ((countDiff s t : Nat) : WithTop Nat)) := by
  refine ⟨?_, ?_, ?_⟩
  · intro e
    exact gsdAux_self s e 0
  · intro h
    exact gsdAux_top_of_violation s t 0 h
  · intro h
    simpa using gsdAux_count_of_no_violation s t 0 hlen ht h

/-- Witness for C8 at concrete signatures. -/
theorem c8_distance_law_witness :
    getSignatureDistance ['X', '_'] ['X', '_'] true = (0 : WithTop Nat) :=
  (c8_distance_law ['X', '_'] ['X', '_'] (by decide) (by decide)).1 true

/- ### The module graph -/

/-- The observables of `Module` objects used by `chunkAssignment.ts`,
with modules named by natural numbers.  `isExternal` models
`instanceof ExternalModule`; `includedDependencies` is
`getDependenciesToBeIncluded()`; `dynamicImportResolutions m` lists the
`resolution` field of `m.dynamicImports`, `none` standing for an
unresolved import; `size` is `magicString.toString().length`. -/
structure ModuleGraph where
  isExternal : Nat → Bool
  dependencies : Nat → List Nat
  includedDependencies : Nat → List Nat
  dynamicImportResolutions : Nat → List (Option Nat)
  includedDynamicImporters : Nat → List Nat
  implicitlyLoadedBefore : Nat → List Nat
  implicitlyLoadedAfter : Nat → List Nat
  hasEffects : Nat → Bool
  size : Nat → Nat

/-- Replace the value stored under the first occurrence of a key in an
association list. -/
def updateAssocValue : List (Nat × List Nat) → Nat → (List Nat → List Nat) → List (Nat × List Nat)
  | [], _, _ => []
  | (k, v) :: rest, m, f =>
    if k = m then (k, f v) :: rest else (k, v) :: updateAssocValue rest m f

/-- `getOrCreate(map, m, () => new Set()).add(e)` on a
`Map<Module, Set<Module>>`: create the key at the end when absent, then
insert the element into its set. -/
def getOrCreateAdd (l : List (Nat × List Nat)) (m e : Nat) : List (Nat × List Nat) :=
  if (l.map Prod.fst).contains m then updateAssocValue l m (insertIfAbsent e)
  else l ++ [(m, [e])]

/-- Replace (or append) the bucket stored under an alias. -/
def updateStringAssoc : List (String × List Nat) → String → List Nat → List (String × List Nat)
  | [], a, v => [(a, v)]
  | (k, w) :: rest, a, v =>
    if k = a then (k, v) :: rest else (k, w) :: updateStringAssoc rest a v

/- ### Manual chunk materialization -/

/-- Worklist loop of `addStaticDependenciesToManualChunk`: pop the next
module of the live set, mark it, push it onto the alias bucket, and
enqueue its direct dependencies that are neither external nor already
marked nor already queued. -/
def addStaticDependenciesToManualChunkAux (G : ModuleGraph) :
    Nat → List Nat → List Nat → List Nat → List Nat × List Nat
  | 0, _, bucket, marked => (bucket, marked)
  | _ + 1, [], bucket, marked => (bucket, marked)
  | fuel + 1, m :: pending, bucket, marked =>
    let marked1 := insertIfAbsent m marked
    let bucket1 := bucket ++ [m]
    let pending1 := (G.dependencies m).foldl
      (fun pend d =>
        if G.isExternal d || marked1.contains d || pend.contains d then pend
        else pend ++ [d])
      pending
    addStaticDependenciesToManualChunkAux G fuel pending1 bucket1 marked1

/-- `addStaticDependenciesToManualChunk` of the source: traverse the
static dependencies of a manually-assigned entry, pushing each reached
module into the alias bucket and into `modulesInManualChunks`. -/
def addStaticDependenciesToManualChunk (G : ModuleGraph) (fuel : Nat) (entry : Nat)
    (manualChunkModules modulesInManualChunks : List Nat) : List Nat × List Nat :=
  addStaticDependenciesToManualChunkAux G fuel [entry] manualChunkModules modulesInManualChunks

/-- The first phase of `getChunkAssignments`: seed
`modulesInManualChunks` with the alias-map keys, then materialize each
alias bucket in map-iteration order. -/
def buildManualChunks (G : ModuleGraph) (fuel : Nat)
    (manualChunkAliasByEntry : List (Nat × String)) :
    List (String × List Nat) × List Nat :=
  manualChunkAliasByEntry.foldl
    (fun acc p =>
      let bucket := (acc.1.lookup p.2).getD []
      let r := addStaticDependenciesToManualChunk G fuel p.1 bucket acc.2
      (updateStringAssoc acc.1 p.2 r.1, r.2))
    ([], dedupList (manualChunkAliasByEntry.map Prod.fst))

/-- The manual-chunk phase with each pair's traversal recorded
separately: the same traversals in the same order, threading the same
shared `modulesInManualChunks`, but each run starts from an empty
bucket so that its own freshly discovered segment is kept next to its
alias instead of being appended to the shared alias bucket. -/
def manualSegmentsFrom (G : ModuleGraph) (fuel : Nat) :
    List (Nat × String) → List Nat → List (String × List Nat) × List Nat
  | [], marked => ([], marked)
  | p :: rest, marked =>
    let r := addStaticDependenciesToManualChunk G fuel p.1 [] marked
    let q := manualSegmentsFrom G fuel rest r.2
    ((p.2, r.1) :: q.1, q.2)

/-- The per-pair discovery segments of the manual-chunk phase, started
from the seeded `modulesInManualChunks` exactly as `buildManualChunks`
is. -/
def manualChunkSegments (G : ModuleGraph) (fuel : Nat)
    (manualChunkAliasByEntry : List (Nat × String)) :
    List (String × List Nat) × List Nat :=
  manualSegmentsFrom G fuel manualChunkAliasByEntry
    (dedupList (manualChunkAliasByEntry.map Prod.fst))

/- ### Graph analysis -/

/-- The state threaded through `analyzeModuleGraph`: the live ordered
set of all entries together with its unprocessed suffix, the map of
entries depending on each module, and the dynamic entries discovered. -/
structure AnalyzeState where
  allEntries : List Nat
  outerPending : List Nat
  dependentEntriesByModule : List (Nat × List Nat)
  dynamicEntries : List Nat
deriving DecidableEq, Repr

/-- Inner worklist of `analyzeModuleGraph` for one `currentEntry`:
record the entry against each reached module, enqueue included
non-external static dependencies, and register newly discovered
dynamic-import targets and implicitly-loaded-before modules as
dynamic entries. -/
def analyzeInner (G : ModuleGraph) (currentEntry : Nat) :
    Nat → List Nat → List Nat → AnalyzeState → AnalyzeState
  | 0, _, _, st => st
  | _ + 1, [], _, st => st
  | fuel + 1, m :: pending, seen, st =>
    let st1 := { st with
      dependentEntriesByModule := getOrCreateAdd st.dependentEntriesByModule m currentEntry }
    let ps := (G.includedDependencies m).foldl
      (fun (ps : List Nat × List Nat) d =>
        if G.isExternal d || ps.2.contains d then ps else (ps.1 ++ [d], ps.2 ++ [d]))
      (pending, seen)
    let st2 := (G.dynamicImportResolutions m).foldl
      (fun (st : AnalyzeState) r =>
        match r with
        | some res =>
          if !G.isExternal res && decide (0 < (G.includedDynamicImporters res).length) &&
              !(st.allEntries.contains res) then
            { st with
              dynamicEntries := st.dynamicEntries ++ [res],
              allEntries := st.allEntries ++ [res],
              outerPending := st.outerPending ++ [res] }
          else st
        | none => st)
      st1
    let st3 := (G.implicitlyLoadedBefore m).foldl
      (fun (st : AnalyzeState) d =>
        if st.allEntries.contains d then st
        else
          { st with
            dynamicEntries := st.dynamicEntries ++ [d],
            allEntries := st.allEntries ++ [d],
            outerPending := st.outerPending ++ [d] })
      st2
    analyzeInner G currentEntry fuel ps.1 ps.2 st3

/-- Outer live-set loop of `analyzeModuleGraph` over `allEntries`
(additions made during traversal become future iterations). -/
def analyzeOuter (G : ModuleGraph) : Nat → AnalyzeState → AnalyzeState
  | 0, st => st
  | fuel + 1, st =>
    match st.outerPending with
    | [] => st
    | e :: rest =>
      analyzeOuter G fuel (analyzeInner G e fuel [e] [e] { st with outerPending := rest })

/-- `analyzeModuleGraph` of the source. -/
def analyzeModuleGraph (G : ModuleGraph) (fuel : Nat) (entries : List Nat) : AnalyzeState :=
  let init := dedupList entries
  analyzeOuter G fuel
    { allEntries := init, outerPending := init,
      dependentEntriesByModule := [], dynamicEntries := [] }

/-- `getDynamicallyDependentEntriesByDynamicEntry` of the source: for
each dynamic entry, the union over its included dynamic importers and
implicitly-loaded-after modules of their dependent entry sets. -/
def getDynamicallyDependentEntriesByDynamicEntry (G : ModuleGraph)
    (dependentEntriesByModule : List (Nat × List Nat)) (dynamicEntries : List Nat) :
    List (Nat × List Nat) :=
  dynamicEntries.foldl
    (fun acc dynamicEntry =>
      let importers := G.includedDynamicImporters dynamicEntry ++
        G.implicitlyLoadedAfter dynamicEntry
      let dynamicDependentEntries := importers.foldl
        (fun s importer =>
          ((dependentEntriesByModule.lookup importer).getD []).foldl
            (fun s e => insertIfAbsent e s) s)
        []
      acc ++ [(dynamicEntry, dynamicDependentEntries)])
    []

/- ### Entry-to-module assignment -/

/-- `MAX_ENTRIES_TO_CHECK_FOR_SHARED_DEPENDENCIES` of the source. -/
def MAX_ENTRIES_TO_CHECK_FOR_SHARED_DEPENDENCIES : Nat := 3

/-- Live-set loop of `areEntriesContainedOrDynamicallyDependent`. -/
def areEntriesContainedAux (containedIn staticEntries : List Nat)
    (dynMap : List (Nat × List Nat)) :
    Nat → List Nat → List Nat → Bool
  | 0, _, _ => true
  | _ + 1, [], _ => true
  | fuel + 1, e :: pending, seen =>
    if containedIn.contains e then
      areEntriesContainedAux containedIn staticEntries dynMap fuel pending seen
    else if staticEntries.contains e then false
    else
      let dynamicallyDependentEntries := (dynMap.lookup e).getD []
      if MAX_ENTRIES_TO_CHECK_FOR_SHARED_DEPENDENCIES < dynamicallyDependentEntries.length then
        false
      else
        let ps := dynamicallyDependentEntries.foldl
          (fun (ps : List Nat × List Nat) d =>
            if ps.2.contains d then ps else (ps.1 ++ [d], ps.2 ++ [d]))
          (pending, seen)
        areEntriesContainedAux containedIn staticEntries dynMap fuel ps.1 ps.2

/-- `areEntriesContainedOrDynamicallyDependent` of the source. -/
def areEntriesContainedOrDynamicallyDependent (fuelC : Nat)
    (entries containedIn staticEntries : List Nat)
    (dynMap : List (Nat × List Nat)) : Bool :=
  let es := dedupList entries
  if MAX_ENTRIES_TO_CHECK_FOR_SHARED_DEPENDENCIES < es.length then false
  else areEntriesContainedAux containedIn staticEntries dynMap fuelC es es

/-- The elision test applied to each visited module in
`assignEntryToStaticDependencies`: skip attribution when the entry's
dynamically-dependent entries are contained in (or dynamically depend
on) the entries already known to load the module. -/
def skipCheck (fuelC : Nat) (dynamicDependentEntries : Option (List Nat))
    (dependentEntriesByModule : List (Nat × List Nat))
    (staticEntries : List Nat) (dynMap : List (Nat × List Nat)) (m : Nat) : Bool :=
  match dynamicDependentEntries with
  | none => false
  | some es =>
    areEntriesContainedOrDynamicallyDependent fuelC es
      ((dependentEntriesByModule.lookup m).getD []) staticEntries dynMap

/-- The dependency-enqueue step shared by the assignment worklists:
append each included dependency that is neither external, in a manual
chunk, nor already seen, to both the pending queue and the seen set. -/
def enqueueIncludedDependencies (G : ModuleGraph) (modulesInManualChunks : List Nat)
    (m : Nat) (ps : List Nat × List Nat) : List Nat × List Nat :=
  (G.includedDependencies m).foldl
    (fun ps d =>
      if G.isExternal d || modulesInManualChunks.contains d || ps.2.contains d then ps
      else (ps.1 ++ [d], ps.2 ++ [d]))
    ps

/-- Worklist loop of `assignEntryToStaticDependencies`: each popped
module first receives a (possibly empty) assigned-entry set
(`getOrCreate`), then either the elision check fires — `continue`,
which also skips the dependency scan — or the entry is attributed and
the included non-external, non-manual dependencies are enqueued. -/
def assignEntryToStaticDependenciesAux (G : ModuleGraph) (fuelC : Nat) (entry : Nat)
    (dynamicDependentEntries : Option (List Nat))
    (dependentEntriesByModule : List (Nat × List Nat))
    (modulesInManualChunks staticEntries : List Nat)
    (dynMap : List (Nat × List Nat)) :
    Nat → List Nat → List Nat → List (Nat × List Nat) → List (Nat × List Nat)
  | 0, _, _, aem => aem
  | _ + 1, [], _, aem => aem
  | fuel + 1, m :: pending, seen, aem =>
    let aem1 := if (aem.map Prod.fst).contains m then aem else aem ++ [(m, [])]
    if skipCheck fuelC dynamicDependentEntries dependentEntriesByModule staticEntries dynMap m then
      assignEntryToStaticDependenciesAux G fuelC entry dynamicDependentEntries
        dependentEntriesByModule modulesInManualChunks staticEntries dynMap fuel pending seen aem1
    else
      let aem2 := updateAssocValue aem1 m (insertIfAbsent entry)
      let ps := enqueueIncludedDependencies G modulesInManualChunks m (pending, seen)
      assignEntryToStaticDependenciesAux G fuelC entry dynamicDependentEntries
        dependentEntriesByModule modulesInManualChunks staticEntries dynMap fuel ps.1 ps.2 aem2

/-- `assignEntryToStaticDependencies` of the source. -/
def assignEntryToStaticDependencies (G : ModuleGraph) (fuel fuelC : Nat) (entry : Nat)
    (dependentEntriesByModule : List (Nat × List Nat))
    (assignedEntriesByModule : List (Nat × List Nat))
    (modulesInManualChunks staticEntries : List Nat)
    (dynMap : List (Nat × List Nat)) : List (Nat × List Nat) :=
  assignEntryToStaticDependenciesAux G fuelC entry (dynMap.lookup entry)
    dependentEntriesByModule modulesInManualChunks staticEntries dynMap
    fuel [entry] [entry] assignedEntriesByModule

/-- Specification companion of `assignEntryToStaticDependenciesAux`
with the same control flow, returning the list of modules the loop body
runs for (the modules "visited" by the traversal). -/
def assignEntryVisitedAux (G : ModuleGraph) (fuelC : Nat)
    (dynamicDependentEntries : Option (List Nat))
    (dependentEntriesByModule : List (Nat × List Nat))
    (modulesInManualChunks staticEntries : List Nat)
    (dynMap : List (Nat × List Nat)) :
    Nat → List Nat → List Nat → List Nat
  | 0, _, _ => []
  | _ + 1, [], _ => []
  | fuel + 1, m :: pending, seen =>
    if skipCheck fuelC dynamicDependentEntries dependentEntriesByModule staticEntries dynMap m then
      m :: assignEntryVisitedAux G fuelC dynamicDependentEntries dependentEntriesByModule
        modulesInManualChunks staticEntries dynMap fuel pending seen
    else
      let ps := enqueueIncludedDependencies G modulesInManualChunks m (pending, seen)
      m :: assignEntryVisitedAux G fuelC dynamicDependentEntries dependentEntriesByModule
        modulesInManualChunks staticEntries dynMap fuel ps.1 ps.2

/-- The modules visited by `assignEntryToStaticDependencies` for one
entry. -/
def assignEntryVisited (G : ModuleGraph) (fuel fuelC : Nat) (entry : Nat)
    (dependentEntriesByModule : List (Nat × List Nat))
    (modulesInManualChunks staticEntries : List Nat)
    (dynMap : List (Nat × List Nat)) : List Nat :=
  assignEntryVisitedAux G fuelC (dynMap.lookup entry) dependentEntriesByModule
    modulesInManualChunks staticEntries dynMap fuel [entry] [entry]

/- ### Signature grouping -/

/-- Append a module to the group of its signature, creating the group
at the end on first occurrence (the string-keyed object of
`getChunkModulesBySignature`). -/
def addToGroups : List (List Char × List Nat) → List Char → Nat → List (List Char × List Nat)
  | [], sig, m => [(sig, [m])]
  | (k, mods) :: rest, sig, m =>
    if k = sig then (k, mods ++ [m]) :: rest else (k, mods) :: addToGroups rest sig m

/-- `getChunkModulesBySignature` of the source: group the modules of
`assignedEntriesByModule` (in map order) by their entry signature. -/
def getChunkModulesBySignature (assignedEntriesByModule : List (Nat × List Nat))
    (allEntries : List Nat) : List (List Char × List Nat) :=
  assignedEntriesByModule.foldl
    (fun groups p => addToGroups groups (buildSignature allEntries p.2) p.1) []

/- ### Chunk partition and merging -/

/-- `ChunkDescription` of the source.  The `id` field models JavaScript
object identity (chunk objects are mutated in place and compared by
reference); a merged chunk keeps the target's identity. -/
structure ChunkDescription where
  id : Nat
  modules : List Nat
  pure : Bool
  signature : List Char
  size : Nat
deriving DecidableEq, Repr

/-- The four buckets of `ChunkPartition`. -/
inductive BucketId
  | smallPure
  | smallSideEffect
  | bigPure
  | bigSideEffect
deriving DecidableEq, Repr

/-- Whether a bucket is one of the two `pure` buckets. -/
def BucketId.isPure : BucketId → Bool
  | .smallPure => true
  | .bigPure => true
  | _ => false

/-- `ChunkPartition` of the source: the `{small,big} × {pure,sideEffect}`
sets, each an insertion-ordered list. -/
structure ChunkPartition where
  smallPure : List ChunkDescription
  smallSideEffect : List ChunkDescription
  bigPure : List ChunkDescription
  bigSideEffect : List ChunkDescription
deriving DecidableEq, Repr

def ChunkPartition.get (P : ChunkPartition) : BucketId → List ChunkDescription
  | .smallPure => P.smallPure
  | .smallSideEffect => P.smallSideEffect
  | .bigPure => P.bigPure
  | .bigSideEffect => P.bigSideEffect

def ChunkPartition.modify (P : ChunkPartition) (b : BucketId)
    (f : List ChunkDescription → List ChunkDescription) : ChunkPartition :=
  match b with
  | .smallPure => { P with smallPure := f P.smallPure }
  | .smallSideEffect => { P with smallSideEffect := f P.smallSideEffect }
  | .bigPure => { P with bigPure := f P.bigPure }
  | .bigSideEffect => { P with bigSideEffect := f P.bigSideEffect }

/-- Total number of chunks held by a partition (a termination measure
for the merge loop). -/
def partitionWeight (P : ChunkPartition) : Nat :=
  P.smallPure.length + P.smallSideEffect.length + P.bigPure.length + P.bigSideEffect.length

/-- Stable insertion into a size-sorted list: the element goes after
every element of no larger size, which is what the stable
`Array.prototype.sort` with `compareChunks` (ascending `size`)
produces. -/
def insertBySize (c : ChunkDescription) : List ChunkDescription → List ChunkDescription
  | [] => [c]
  | d :: ds => if d.size ≤ c.size then d :: insertBySize c ds else c :: d :: ds

/-- Stable ascending sort by `size` (the effect of
`chunks.sort(compareChunks)`). -/
def sortBySize (l : List ChunkDescription) : List ChunkDescription :=
  l.foldl (fun acc c => insertBySize c acc) []

/-- Build one `ChunkDescription` per signature group, with consecutive
identities; `pure` and `size` are the fold over the group's modules of
`pure &&= !module.hasEffects()` and `size += module.magicString...length`. -/
def describeChunks (G : ModuleGraph) : Nat → List (List Char × List Nat) → List ChunkDescription
  | _, [] => []
  | i, (signature, modules) :: rest =>
    { id := i, modules := modules,
      pure := modules.all (fun m => !G.hasEffects m),
      signature := signature,
      size := (modules.map G.size).sum } :: describeChunks G (i + 1) rest

/-- `getPartitionedChunks` of the source: classify each signature group
by `(size < minChunkSize, pure)` and sort each bucket ascending by
size. -/
def getPartitionedChunks (G : ModuleGraph)
    (chunkModulesBySignature : List (List Char × List Nat)) (minChunkSize : Int) :
    ChunkPartition :=
  let descs := describeChunks G 0 chunkModulesBySignature
  { smallPure := sortBySize (descs.filter (fun c => decide ((c.size : Int) < minChunkSize) && c.pure)),
    smallSideEffect := sortBySize (descs.filter (fun c => decide ((c.size : Int) < minChunkSize) && !c.pure)),
    bigPure := sortBySize (descs.filter (fun c => !decide ((c.size : Int) < minChunkSize) && c.pure)),
    bigSideEffect := sortBySize (descs.filter (fun c => !decide ((c.size : Int) < minChunkSize) && !c.pure)) }

/-- `getChunksInPartition` of the source, returning which bucket a
chunk belongs to by its current `(size, pure)`. -/
def getChunksInPartitionId (minChunkSize : Int) (chunk : ChunkDescription) : BucketId :=
  if (chunk.size : Int) < minChunkSize then
    (if chunk.pure then .smallPure else .smallSideEffect)
  else (if chunk.pure then .bigPure else .bigSideEffect)

/-- The distance computed for a candidate target in `mergeChunks`: a
pure source measures `source → target` with subset enforcement exactly
when the target is impure; an impure source measures `target → source`
with subset enforcement. -/
def mergeDistance (source target : ChunkDescription) : WithTop Nat :=
  if source.pure then getSignatureDistance source.signature target.signature (!target.pure)
  else getSignatureDistance target.signature source.signature true

/-- The candidate scan of `mergeChunks`: keep the first strictly-closer
candidate seen so far, stop immediately at a candidate of distance
exactly 1, and never consider the source itself. -/
def findTargetAux (source : ChunkDescription) :
    List ChunkDescription → Option ChunkDescription → WithTop Nat → Option ChunkDescription
  | [], closestChunk, _ => closestChunk
  | t :: ts, closestChunk, closestChunkDistance =>
    if t.id = source.id then findTargetAux source ts closestChunk closestChunkDistance
    else
      let distance := mergeDistance source t
      if distance = 1 then some t
      else if distance < closestChunkDistance then findTargetAux source ts (some t) distance
      else findTargetAux source ts closestChunk closestChunkDistance

/-- The merge target chosen for a source chunk from the lazily
concatenated candidate buckets. -/
def findTarget (source : ChunkDescription) (candidates : List ChunkDescription) :
    Option ChunkDescription :=
  findTargetAux source candidates none ⊤

/-- The in-place mutation of the found target chunk: modules appended,
sizes added, purity met, signatures merged (`closestChunk.modules.push`,
`size +=`, `pure &&=`, `signature = mergeSignatures(...)`); the merged
chunk keeps the target's identity. -/
def mergeInto (mergedChunk closestChunk : ChunkDescription) : ChunkDescription :=
  { id := closestChunk.id,
    modules := closestChunk.modules ++ mergedChunk.modules,
    pure := closestChunk.pure && mergedChunk.pure,
    signature := mergeSignatures mergedChunk.signature closestChunk.signature,
    size := closestChunk.size + mergedChunk.size }

/-- The partition update of one merge: delete the source from the
iterated bucket, delete the target from its current bucket, and re-add
the mutated target to the bucket of its new `(size, pure)`. -/
def applyMerge (minChunkSize : Int) (srcBucket : BucketId)
    (mergedChunk closestChunk : ChunkDescription) (P : ChunkPartition) : ChunkPartition :=
  let P1 := P.modify srcBucket (fun l => l.filter (fun c => c.id != mergedChunk.id))
  let P2 := P1.modify (getChunksInPartitionId minChunkSize closestChunk)
    (fun l => l.filter (fun c => c.id != closestChunk.id))
  P2.modify (getChunksInPartitionId minChunkSize (mergeInto mergedChunk closestChunk))
    (fun l => l ++ [mergeInto mergedChunk closestChunk])

/-- The mirror of one merge on the live worklist of the iterated
source bucket: an element deleted from the iterated set disappears from
the iterator, an element (re-)added to it is visited at the end. -/
def applyMergePending (minChunkSize : Int) (srcBucket : BucketId)
    (mergedChunk closestChunk : ChunkDescription) (pending : List Nat) : List Nat :=
  let pending1 :=
    if getChunksInPartitionId minChunkSize closestChunk = srcBucket then
      pending.filter (fun i => i != closestChunk.id)
    else pending
  if getChunksInPartitionId minChunkSize (mergeInto mergedChunk closestChunk) = srcBucket
  then pending1 ++ [(mergeInto mergedChunk closestChunk).id]
  else pending1

/-- One pass of `mergeChunks` over the live source set, embodied as a
worklist of chunk identities.  A found target is removed from its
bucket, mutated in place and re-bucketed; deletions from and additions
to the iterated source bucket are mirrored on the worklist exactly as a
live JavaScript `Set` iterator would see them. -/
def mergeChunksAux (minChunkSize : Int) (srcBucket : BucketId) (targetBuckets : List BucketId) :
    Nat → ChunkPartition → List Nat → ChunkPartition
  | 0, P, _ => P
  | _ + 1, P, [] => P
  | fuel + 1, P, h :: pending =>
    match (P.get srcBucket).find? (fun c => c.id == h) with
    | none => mergeChunksAux minChunkSize srcBucket targetBuckets fuel P pending
    | some mergedChunk =>
      match findTarget mergedChunk ((targetBuckets.map P.get).flatten) with
      | none => mergeChunksAux minChunkSize srcBucket targetBuckets fuel P pending
      | some closestChunk =>
        mergeChunksAux minChunkSize srcBucket targetBuckets fuel
          (applyMerge minChunkSize srcBucket mergedChunk closestChunk P)
          (applyMergePending minChunkSize srcBucket mergedChunk closestChunk pending)

/-- `mergeChunks` of the source. -/
def mergeChunks (minChunkSize : Int) (srcBucket : BucketId) (targetBuckets : List BucketId)
    (P : ChunkPartition) : ChunkPartition :=
  let pending := (P.get srcBucket).map (fun c => c.id)
  mergeChunksAux minChunkSize srcBucket targetBuckets
    (partitionWeight P + pending.length + 1) P pending

/-- `getOptimizedChunks` of the source: partition, merge small
side-effect chunks into pure targets, merge small pure chunks, and emit
the remaining chunks in the fixed bucket order. -/
def getOptimizedChunks (G : ModuleGraph)
    (chunkModulesBySignature : List (List Char × List Nat)) (minChunkSize : Int) :
    List ChunkDescription :=
  let P0 := getPartitionedChunks G chunkModulesBySignature minChunkSize
  let P1 := mergeChunks minChunkSize .smallSideEffect [.smallPure, .bigPure] P0
  let P2 := mergeChunks minChunkSize .smallPure [.smallPure, .bigSideEffect, .bigPure] P1
  P2.smallSideEffect ++ P2.smallPure ++ P2.bigSideEffect ++ P2.bigPure

/-- `createChunks` of the source: with `minChunkSize == 0` one
`{alias: null, modules}` chunk per signature group, otherwise the
optimized chunks. -/
def createChunks (G : ModuleGraph) (allEntries : List Nat)
    (assignedEntriesByModule : List (Nat × List Nat)) (minChunkSize : Int) :
    List (Option String × List Nat) :=
  let chunkModulesBySignature := getChunkModulesBySignature assignedEntriesByModule allEntries
  if minChunkSize = 0 then chunkModulesBySignature.map (fun g => ((none : Option String), g.2))
  else (getOptimizedChunks G chunkModulesBySignature minChunkSize).map
    (fun c => ((none : Option String), c.modules))

/-- `getChunkAssignments` of the source, the top-level entry point:
manual chunks first, then graph analysis, entry assignment, and
automatic chunk creation.  Chunks are `(alias, modules)` pairs with
`none` standing for the `null` alias. -/
def getChunkAssignments (G : ModuleGraph) (fuel : Nat) (entries : List Nat)
    (manualChunkAliasByEntry : List (Nat × String)) (minChunkSize : Int) :
    List (Option String × List Nat) :=
  let manual := buildManualChunks G fuel manualChunkAliasByEntry
  let chunkDefinitions := manual.1.map (fun g => (some g.1, g.2))
  let st := analyzeModuleGraph G fuel entries
  let dynMap := getDynamicallyDependentEntriesByDynamicEntry G
    st.dependentEntriesByModule st.dynamicEntries
  let staticEntries := dedupList entries
  let assignedEntriesByModule := st.allEntries.foldl
    (fun aem entry =>
      if manual.2.contains entry then aem
      else assignEntryToStaticDependencies G fuel fuel entry st.dependentEntriesByModule aem
        manual.2 staticEntries dynMap)
    []
  chunkDefinitions ++ createChunks G st.allEntries assignedEntriesByModule minChunkSize

/- ### Example graphs used by concrete theorems -/

/-- A small static graph: entries `1` and `2`, with `1 → 11, 12` and
`2 → 12, 13`; no dynamic imports, no effects, every module of size 5. -/
def exampleGraphA : ModuleGraph :=
  { isExternal := fun _ => false,
    dependencies := fun m => if m = 1 then [11, 12] else if m = 2 then [12, 13] else [],
    includedDependencies := fun m => if m = 1 then [11, 12] else if m = 2 then [12, 13] else [],
    dynamicImportResolutions := fun _ => [],
    includedDynamicImporters := fun _ => [],
    implicitlyLoadedBefore := fun _ => [],
    implicitlyLoadedAfter := fun _ => [],
    hasEffects := fun _ => false,
    size := fun _ => 5 }

/- ### Claim C5 -/

/-- C5: `getChunkAssignments` is deterministic — two invocations whose
inputs agree observable-by-observable (same module graph, same entry
order, same alias-map iteration order, same `minChunkSize`) return
identical chunk sequences, module order included. -/
theorem c5_determinism (G1 G2 : ModuleGraph) (fuel : Nat) (entries : List Nat)
    (manualChunkAliasByEntry : List (Nat × String)) (minChunkSize : Int)
    (hExt : ∀ m, G1.isExternal m = G2.isExternal m)
    (hDep : ∀ m, G1.dependencies m = G2.dependencies m)
    (hInc : ∀ m, G1.includedDependencies m = G2.includedDependencies m)
    (hDyn : ∀ m, G1.dynamicImportResolutions m = G2.dynamicImportResolutions m)
    (hImp : ∀ m, G1.includedDynamicImporters m = G2.includedDynamicImporters m)
    (hBef : ∀ m, G1.implicitlyLoadedBefore m = G2.implicitlyLoadedBefore m)
    (hAft : ∀ m, G1.implicitlyLoadedAfter m = G2.implicitlyLoadedAfter m)
    (hEff : ∀ m, G1.hasEffects m = G2.hasEffects m)
    (hSize : ∀ m, G1.size m = G2.size m) :
    getChunkAssignments G1 fuel entries manualChunkAliasByEntry minChunkSize =
      getChunkAssignments G2 fuel entries manualChunkAliasByEntry minChunkSize := by
  have hG : G1 = G2 := by
    cases G1; cases G2
    simp only [ModuleGraph.mk.injEq]
    exact ⟨funext hExt, funext hDep, funext hInc, funext hDyn, funext hImp,
      funext hBef, funext hAft, funext hEff, funext hSize⟩
  rw [hG]

/-- Witness for C5: two invocations on (syntactically two copies of)
the same concrete input agree. -/
theorem c5_determinism_witness :
    getChunkAssignments exampleGraphA 20 [1, 2] [(1, "v")] 7 =
      getChunkAssignments exampleGraphA 20 [1, 2] [(1, "v")] 7 :=
  by
  refine c5_determinism exampleGraphA exampleGraphA 20 [1, 2] [(1, "v")] 7
    ?_ ?_ ?_ ?_ ?_ ?_ ?_ ?_ ?_ <;> exact fun _ => rfl

/- ### Claim C9 -/

theorem mergeChunksAux_pending_nil (minChunkSize : Int) (srcBucket : BucketId)
    (targetBuckets : List BucketId) (fuel : Nat) (P : ChunkPartition) :
    mergeChunksAux minChunkSize srcBucket targetBuckets fuel P [] = P := by
  cases fuel <;> rfl

/-- C9 counterexample: `getChunkAssignments` with a negative
`minChunkSize` neither aborts nor throws — it silently returns a normal
chunk list (the signature groups, size-sorted, unmerged). -/
theorem c9_negative_min_counterexample :
    getChunkAssignments exampleGraphA 20 [1, 2] [] (-100) =
      [((none : Option String), [12]), (none, [1, 11]), (none, [2, 13])] := by
  decide

/-- C9 amended: a negative `minChunkSize` is accepted silently; since
no chunk size is below it, both small partitions are empty, the merge
passes do nothing, and the signature groups are emitted unchanged. -/
theorem c9_negative_min_silent (G : ModuleGraph)
    (chunkModulesBySignature : List (List Char × List Nat)) (minChunkSize : Int)
    (hneg : minChunkSize < 0) :
    (getPartitionedChunks G chunkModulesBySignature minChunkSize).smallPure = [] ∧
    (getPartitionedChunks G chunkModulesBySignature minChunkSize).smallSideEffect = [] ∧
    getOptimizedChunks G chunkModulesBySignature minChunkSize =
      (getPartitionedChunks G chunkModulesBySignature minChunkSize).bigSideEffect ++
        (getPartitionedChunks G chunkModulesBySignature minChunkSize).bigPure := by
  have hdec : ∀ c : ChunkDescription, decide ((c.size : Int) < minChunkSize) = false := by
    intro c
    simp only [decide_eq_false_iff_not, not_lt]
    omega
  have hsp : (getPartitionedChunks G chunkModulesBySignature minChunkSize).smallPure = [] := by
    simp only [getPartitionedChunks]
    rw [List.filter_eq_nil_iff.2 (fun c _ => by simp [hdec c])]
    rfl
  have hss : (getPartitionedChunks G chunkModulesBySignature minChunkSize).smallSideEffect
      = [] := by
    simp only [getPartitionedChunks]
    rw [List.filter_eq_nil_iff.2 (fun c _ => by simp [hdec c])]
    rfl
  refine ⟨hsp, hss, ?_⟩
  simp only [getOptimizedChunks, mergeChunks]
  rw [show (getPartitionedChunks G chunkModulesBySignature minChunkSize).get .smallSideEffect
      = [] from hss]
  simp only [List.map_nil, mergeChunksAux_pending_nil]
  rw [show (getPartitionedChunks G chunkModulesBySignature minChunkSize).get .smallPure
      = [] from hsp]
  simp only [List.map_nil, mergeChunksAux_pending_nil]
  rw [hsp, hss]
  rfl

/-- Witness for the amended C9 at a concrete negative size bound. -/
theorem c9_negative_min_silent_witness :
    getOptimizedChunks exampleGraphA [(['X'], [1])] (-5) =
      (getPartitionedChunks exampleGraphA [(['X'], [1])] (-5)).bigSideEffect ++
        (getPartitionedChunks exampleGraphA [(['X'], [1])] (-5)).bigPure :=
  (c9_negative_min_silent exampleGraphA [(['X'], [1])] (-5) (by decide)).2.2

/- ### Claim C2 -/

/-- The graph of the C2 counterexample: included dependencies
`0 → 1 → 2`, nothing else. -/
def exampleGraphC2 : ModuleGraph :=
  { exampleGraphA with
    dependencies := fun m => if m = 0 then [1] else if m = 1 then [2] else [],
    includedDependencies := fun m => if m = 0 then [1] else if m = 1 then [2] else [] }

/-- C2 counterexample: the set of modules visited (the keys created in
`assignedEntriesByModule`) from dynamic entry `0` is NOT independent of
the elision skips.  With the real dynamically-dependent-entries map the
check fires at module `1` and the `continue` also skips its dependency
`2`, so only `[0, 1]` are visited; with no elision the same entry
visits `[0, 1, 2]`. -/
theorem c2_traversal_counterexample :
    ((assignEntryToStaticDependencies exampleGraphC2 10 10 0
        [(0, [0]), (1, [10, 0]), (2, [10, 0])] [] [] [10] [(0, [10])]).map Prod.fst
      = [0, 1]) ∧
    ((assignEntryToStaticDependencies exampleGraphC2 10 10 0
        [(0, [0]), (1, [10, 0]), (2, [10, 0])] [] [] [10] []).map Prod.fst
      = [0, 1, 2]) := by
  decide

/-- Reachability along the traversal that `assignEntryToStaticDependencies`
actually performs: the entry is reached, and the included non-external,
non-manual dependencies of a reached module are reached only when the
elision check does NOT fire for that module (the `continue` skips the
dependency scan). -/
inductive GuardedReach (G : ModuleGraph) (skip : Nat → Bool) (manual : List Nat)
    (entry : Nat) : Nat → Prop
  | base : GuardedReach G skip manual entry entry
  | step {m d : Nat} : GuardedReach G skip manual entry m → skip m = false →
      d ∈ G.includedDependencies m → G.isExternal d = false →
      manual.contains d = false → GuardedReach G skip manual entry d

theorem mem_enqueueFold (G : ModuleGraph) (manual : List Nat) :
    ∀ (deps : List Nat) (ps : List Nat × List Nat) (x : Nat),
      x ∈ (deps.foldl
        (fun ps d =>
          if G.isExternal d || manual.contains d || ps.2.contains d then ps
          else (ps.1 ++ [d], ps.2 ++ [d])) ps).1 →
      x ∈ ps.1 ∨ (x ∈ deps ∧ G.isExternal x = false ∧ manual.contains x = false) := by
  intro deps
  induction deps with
  | nil => intro ps x hx; exact Or.inl hx
  | cons d ds ih =>
    intro ps x hx
    simp only [List.foldl_cons] at hx
    by_cases hc : (G.isExternal d || manual.contains d || ps.2.contains d) = true
    · rw [if_pos hc] at hx
      rcases ih ps x hx with h | ⟨h1, h2, h3⟩
      · exact Or.inl h
      · exact Or.inr ⟨List.mem_cons_of_mem _ h1, h2, h3⟩
    · rw [if_neg hc] at hx
      simp only [Bool.or_eq_true, not_or, Bool.not_eq_true] at hc
      rcases ih _ x hx with h | ⟨h1, h2, h3⟩
      · rcases List.mem_append.1 h with h | h
        · exact Or.inl h
        · simp only [List.mem_singleton] at h
          subst h
          exact Or.inr ⟨List.mem_cons_self _ _, hc.1.1, hc.1.2⟩
      · exact Or.inr ⟨List.mem_cons_of_mem _ h1, h2, h3⟩

theorem mem_enqueueIncludedDependencies (G : ModuleGraph) (manual : List Nat)
    (m : Nat) (ps : List Nat × List Nat) (x : Nat)
    (hx : x ∈ (enqueueIncludedDependencies G manual m ps).1) :
    x ∈ ps.1 ∨ (x ∈ G.includedDependencies m ∧ G.isExternal x = false ∧
      manual.contains x = false) :=
  mem_enqueueFold G manual (G.includedDependencies m) ps x hx

theorem assignEntryVisitedAux_sound (G : ModuleGraph) (fuelC : Nat)
    (dde : Option (List Nat)) (dem : List (Nat × List Nat))
    (manual static : List Nat) (dynMap : List (Nat × List Nat)) (entry : Nat) :
    ∀ (fuel : Nat) (pending seen : List Nat),
      (∀ p ∈ pending, GuardedReach G (skipCheck fuelC dde dem static dynMap) manual entry p) →
      ∀ m ∈ assignEntryVisitedAux G fuelC dde dem manual static dynMap fuel pending seen,
        GuardedReach G (skipCheck fuelC dde dem static dynMap) manual entry m := by
  intro fuel
  induction fuel with
  | zero => intro pending seen _ m hm; simp [assignEntryVisitedAux] at hm
  | succ fuel ih =>
    intro pending seen hpend m hm
    cases pending with
    | nil => simp [assignEntryVisitedAux] at hm
    | cons h rest =>
      have hh : GuardedReach G (skipCheck fuelC dde dem static dynMap) manual entry h :=
        hpend h (List.mem_cons_self _ _)
      by_cases hskip : skipCheck fuelC dde dem static dynMap h = true
      · rw [assignEntryVisitedAux, if_pos hskip] at hm
        rcases List.mem_cons.1 hm with rfl | hm
        · exact hh
        · exact ih rest seen (fun p hp => hpend p (List.mem_cons_of_mem _ hp)) m hm
      · rw [assignEntryVisitedAux, if_neg hskip] at hm
        rcases List.mem_cons.1 hm with rfl | hm
        · exact hh
        · refine ih _ _ ?_ m hm
          intro p hp
          rcases mem_enqueueIncludedDependencies G manual h (rest, seen) p hp with
            hp | ⟨h1, h2, h3⟩
          · exact hpend p (List.mem_cons_of_mem _ hp)
          · exact GuardedReach.step hh (Bool.not_eq_true _ ▸ hskip) h1 h2 h3

/-- C2 amended: when the elision check fires for a module, the
`continue` also skips the dependency scan, so the traversal only
reaches modules along paths through non-skipped modules; the set of
visited modules therefore does depend on which attributions are
skipped. -/
theorem c2_traversal_amended (G : ModuleGraph) (fuel fuelC : Nat) (entry : Nat)
    (dem : List (Nat × List Nat)) (manual static : List Nat)
    (dynMap : List (Nat × List Nat)) (m : Nat)
    (hm : m ∈ assignEntryVisited G fuel fuelC entry dem manual static dynMap) :
    GuardedReach G (skipCheck fuelC (dynMap.lookup entry) dem static dynMap)
      manual entry m := by
  refine assignEntryVisitedAux_sound G fuelC (dynMap.lookup entry) dem manual static dynMap
    entry fuel [entry] [entry] ?_ m hm
  intro p hp
  simp only [List.mem_singleton] at hp
  subst hp
  exact GuardedReach.base

/-- Witness for the amended C2 at the counterexample graph. -/
theorem c2_traversal_amended_witness :
    GuardedReach exampleGraphC2
      (skipCheck 10 (([(0, [10])] : List (Nat × List Nat)).lookup 0)
        [(0, [0]), (1, [10, 0]), (2, [10, 0])] [10] [(0, [10])]) [] 0 1 :=
  c2_traversal_amended exampleGraphC2 10 10 0 [(0, [0]), (1, [10, 0]), (2, [10, 0])]
    [] [10] [(0, [10])] 1 (by decide)

/- ### Lemmas about the assigned-entries map and signature groups -/

theorem map_fst_updateAssocValue (l : List (Nat × List Nat)) (m : Nat)
    (f : List Nat → List Nat) :
    (updateAssocValue l m f).map Prod.fst = l.map Prod.fst := by
  induction l with
  | nil => rfl
  | cons p rest ih =>
    obtain ⟨k, v⟩ := p
    by_cases hk : k = m
    · simp [updateAssocValue, hk]
    · simp [updateAssocValue, hk, ih]

theorem keys_mono_assignAux (G : ModuleGraph) (fuelC : Nat) (entry : Nat)
    (dde : Option (List Nat)) (dem : List (Nat × List Nat))
    (manual static : List Nat) (dynMap : List (Nat × List Nat)) :
    ∀ (fuel : Nat) (pending seen : List Nat) (aem : List (Nat × List Nat)) (x : Nat),
      x ∈ aem.map Prod.fst →
      x ∈ (assignEntryToStaticDependenciesAux G fuelC entry dde dem manual static dynMap
        fuel pending seen aem).map Prod.fst := by
  intro fuel
  induction fuel with
  | zero => intro pending seen aem x hx; simpa [assignEntryToStaticDependenciesAux] using hx
  | succ fuel ih =>
    intro pending seen aem x hx
    cases pending with
    | nil => simpa [assignEntryToStaticDependenciesAux] using hx
    | cons h rest =>
      have hx1 : x ∈ (if (aem.map Prod.fst).contains h then aem else aem ++ [(h, [])]).map
          Prod.fst := by
        by_cases hc : (aem.map Prod.fst).contains h = true
        · rw [if_pos hc]; exact hx
        · rw [if_neg hc, List.map_append]
          exact List.mem_append_left _ hx
      by_cases hskip : skipCheck fuelC dde dem static dynMap h = true
      · rw [assignEntryToStaticDependenciesAux, if_pos hskip]
        exact ih rest seen _ x hx1
      · rw [assignEntryToStaticDependenciesAux, if_neg hskip]
        refine ih _ _ _ x ?_
        rw [map_fst_updateAssocValue]
        exact hx1

theorem visited_subset_keys_aux (G : ModuleGraph) (fuelC : Nat) (entry : Nat)
    (dde : Option (List Nat)) (dem : List (Nat × List Nat))
    (manual static : List Nat) (dynMap : List (Nat × List Nat)) :
    ∀ (fuel : Nat) (pending seen : List Nat) (aem : List (Nat × List Nat)) (m : Nat),
      m ∈ assignEntryVisitedAux G fuelC dde dem manual static dynMap fuel pending seen →
      m ∈ (assignEntryToStaticDependenciesAux G fuelC entry dde dem manual static dynMap
        fuel pending seen aem).map Prod.fst := by
  intro fuel
  induction fuel with
  | zero => intro pending seen aem m hm; simp [assignEntryVisitedAux] at hm
  | succ fuel ih =>
    intro pending seen aem m hm
    cases pending with
    | nil => simp [assignEntryVisitedAux] at hm
    | cons h rest =>
      have hkey : h ∈ (if (aem.map Prod.fst).contains h then aem else aem ++ [(h, [])]).map
          Prod.fst := by
        by_cases hc : (aem.map Prod.fst).contains h = true
        · rw [if_pos hc]
          exact List.elem_iff.1 hc
        · rw [if_neg hc, List.map_append]
          exact List.mem_append_right _ (by simp)
      by_cases hskip : skipCheck fuelC dde dem static dynMap h = true
      · rw [assignEntryVisitedAux, if_pos hskip] at hm
        rw [assignEntryToStaticDependenciesAux, if_pos hskip]
        rcases List.mem_cons.1 hm with rfl | hm
        · exact keys_mono_assignAux G fuelC entry dde dem manual static dynMap
            fuel rest seen _ m hkey
        · exact ih rest seen _ m hm
      · rw [assignEntryVisitedAux, if_neg hskip] at hm
        rw [assignEntryToStaticDependenciesAux, if_neg hskip]
        rcases List.mem_cons.1 hm with rfl | hm
        · refine keys_mono_assignAux G fuelC entry dde dem manual static dynMap
            fuel _ _ _ m ?_
          rw [map_fst_updateAssocValue]
          exact hkey
        · exact ih _ _ _ m hm

theorem mem_addToGroups :
    ∀ (groups : List (List Char × List Nat)) (sig : List Char) (m : Nat)
      (q : List Char × List Nat),
      q ∈ addToGroups groups sig m →
      q ∈ groups ∨ (q.1 = sig ∧ q.2 = [m]) ∨
        ∃ mods, (q.1, mods) ∈ groups ∧ q.1 = sig ∧ q.2 = mods ++ [m] := by
  intro groups
  induction groups with
  | nil =>
    intro sig m q hq
    simp only [addToGroups, List.mem_singleton] at hq
    subst hq
    exact Or.inr (Or.inl ⟨rfl, rfl⟩)
  | cons g rest ih =>
    intro sig m q hq
    obtain ⟨k, mods⟩ := g
    by_cases hk : k = sig
    · rw [addToGroups, if_pos hk] at hq
      rcases List.mem_cons.1 hq with rfl | hq
      · exact Or.inr (Or.inr ⟨mods, List.mem_cons_self _ _, hk, rfl⟩)
      · exact Or.inl (List.mem_cons_of_mem _ hq)
    · rw [addToGroups, if_neg hk] at hq
      rcases List.mem_cons.1 hq with rfl | hq
      · exact Or.inl (List.mem_cons_self _ _)
      · rcases ih sig m q hq with h | h | ⟨mods2, h1, h2, h3⟩
        · exact Or.inl (List.mem_cons_of_mem _ h)
        · exact Or.inr (Or.inl h)
        · exact Or.inr (Or.inr ⟨mods2, List.mem_cons_of_mem _ h1, h2, h3⟩)

theorem groups_invariant (aE : List Nat) (P : Nat → List Char → Prop) :
    ∀ (l : List (Nat × List Nat)) (init : List (List Char × List Nat)),
      (∀ q ∈ init, ∀ m ∈ q.2, P m q.1) →
      (∀ p ∈ l, P p.1 (buildSignature aE p.2)) →
      ∀ q ∈ l.foldl (fun gs p => addToGroups gs (buildSignature aE p.2) p.1) init,
        ∀ m ∈ q.2, P m q.1 := by
  intro l
  induction l with
  | nil => intro init hinit _ q hq m hm; exact hinit q hq m hm
  | cons p rest ih =>
    intro init hinit hl q hq m hm
    simp only [List.foldl_cons] at hq
    refine ih _ ?_ (fun p2 hp2 => hl p2 (List.mem_cons_of_mem _ hp2)) q hq m hm
    intro q2 hq2 m2 hm2
    rcases mem_addToGroups init _ _ q2 hq2 with h | ⟨h1, h2⟩ | ⟨mods, h1, h2, h3⟩
    · exact hinit q2 h m2 hm2
    · rw [h2] at hm2
      simp only [List.mem_singleton] at hm2
      subst hm2
      rw [h1]
      exact hl p (List.mem_cons_self _ _)
    · rw [h3] at hm2
      rcases List.mem_append.1 hm2 with hm2 | hm2
      · exact hinit (q2.1, mods) h1 m2 hm2
      · simp only [List.mem_singleton] at hm2
        subst hm2
        rw [h2]
        exact hl p (List.mem_cons_self _ _)

/-- Every module of a signature group carries, in the assigned-entries
map, an entry set whose signature is the group's key. -/
theorem mem_getChunkModulesBySignature (aem : List (Nat × List Nat)) (aE : List Nat) :
    ∀ q ∈ getChunkModulesBySignature aem aE, ∀ m ∈ q.2,
      ∃ es, (m, es) ∈ aem ∧ buildSignature aE es = q.1 := by
  refine groups_invariant aE (fun m sig => ∃ es, (m, es) ∈ aem ∧ buildSignature aE es = sig)
    aem [] (by simp) ?_
  intro p hp
  exact ⟨p.2, by simpa using hp, rfl⟩

theorem count_flatten_addToGroups :
    ∀ (gs : List (List Char × List Nat)) (sig : List Char) (m x : Nat),
      ((addToGroups gs sig m).map Prod.snd).flatten.count x
        = (gs.map Prod.snd).flatten.count x + (if m = x then 1 else 0) := by
  intro gs
  induction gs with
  | nil =>
    intro sig m x
    by_cases hmx : m = x
    · subst hmx
      simp [addToGroups, List.count_cons]
    · simp [addToGroups, List.count_cons, hmx, Ne.symm hmx]
  | cons g rest ih =>
    intro sig m x
    obtain ⟨k, mods⟩ := g
    by_cases hk : k = sig
    · rw [addToGroups, if_pos hk]
      simp only [List.map_cons, List.flatten_cons, List.count_append]
      simp [List.count_cons, beq_iff_eq] <;> omega
    · rw [addToGroups, if_neg hk]
      simp only [List.map_cons, List.flatten_cons, List.count_append, ih]
      omega

theorem count_flatten_groups :
    ∀ (l : List (Nat × List Nat)) (aE : List Nat)
      (init : List (List Char × List Nat)) (x : Nat),
      (((l.foldl (fun gs p => addToGroups gs (buildSignature aE p.2) p.1) init).map
        Prod.snd).flatten).count x
        = ((init.map Prod.snd).flatten).count x + (l.map Prod.fst).count x := by
  intro l
  induction l with
  | nil => intro aE init x; simp
  | cons p rest ih =>
    intro aE init x
    simp only [List.foldl_cons, List.map_cons]
    rw [ih, count_flatten_addToGroups]
    simp [List.count_cons, beq_iff_eq] <;> omega

theorem countP_contains_eq_one :
    ∀ (gs : List (List Char × List Nat)) (m : Nat),
      ((gs.map Prod.snd).flatten).count m = 1 →
      gs.countP (fun g => g.2.contains m) = 1 := by
  intro gs
  induction gs with
  | nil => intro m hm; simp at hm
  | cons g rest ih =>
    intro m hm
    simp only [List.map_cons, List.flatten_cons, List.count_append] at hm
    by_cases hg : m ∈ g.2
    · have h1 : 0 < g.2.count m := List.count_pos_iff.2 hg
      have h2 : ((rest.map Prod.snd).flatten).count m = 0 := by omega
      have h3 : rest.countP (fun g => g.2.contains m) = 0 := by
        rw [List.countP_eq_zero]
        intro q hq
        intro hcont
        have hmq : m ∈ q.2 := List.elem_iff.1 hcont
        have : m ∈ (rest.map Prod.snd).flatten :=
          List.mem_flatten.2 ⟨q.2, List.mem_map_of_mem _ hq, hmq⟩
        rw [← List.count_pos_iff] at this
        omega
      rw [List.countP_cons, h3]
      simp [List.elem_iff.2 hg, hg]
    · have h1 : g.2.count m = 0 := List.count_eq_zero.2 hg
      rw [List.countP_cons]
      have h2 : g.2.contains m = false := by
        rw [Bool.eq_false_iff]
        intro hc
        exact hg (List.elem_iff.1 hc)
      rw [ih m (by omega)]
      simp [h2, hg]

theorem buildSignature_length (aE es : List Nat) :
    (buildSignature aE es).length = aE.length := by
  simp [buildSignature]

theorem mem_buildSignature (aE es : List Nat) :
    ∀ c ∈ buildSignature aE es, c = CHAR_DEPENDENT ∨ c = CHAR_INDEPENDENT := by
  intro c hc
  simp only [buildSignature, List.mem_map] at hc
  obtain ⟨e, _, he⟩ := hc
  by_cases h : es.contains e = true
  · rw [← he, if_pos h]; exact Or.inl rfl
  · rw [← he, if_neg h]; exact Or.inr rfl

theorem buildSignature_nil_assigned (aE : List Nat) :
    buildSignature aE [] = List.replicate aE.length CHAR_INDEPENDENT := by
  induction aE with
  | nil => rfl
  | cons e rest ih => simpa [buildSignature, List.replicate] using ih

theorem lookup_eq_some_of_nodup :
    ∀ (l : List (Nat × List Nat)) (m : Nat) (es : List Nat),
      (l.map Prod.fst).Nodup → (m, es) ∈ l → l.lookup m = some es := by
  intro l
  induction l with
  | nil => intro m es _ h; simp at h
  | cons p rest ih =>
    intro m es hnd hmem
    obtain ⟨k, v⟩ := p
    simp only [List.map_cons, List.nodup_cons] at hnd
    rcases List.mem_cons.1 hmem with heq | hmem
    · obtain ⟨h1, h2⟩ := Prod.mk.injEq .. ▸ heq
      injection heq with h1 h2
      subst h1; subst h2
      simp [List.lookup]
    · have hk : k ≠ m := by
        intro hkm
        subst hkm
        exact hnd.1 (List.mem_map_of_mem Prod.fst hmem)
      have : (m == k) = false := by
        simp [beq_iff_eq]
        exact fun h => hk h.symm
      simp [List.lookup, this]
      exact ih m es hnd.2 hmem

/- ### Claim C10 -/

/-- C10: (a) every module visited by the entry-assignment traversal has
a key created in `assignedEntriesByModule` even when the attribution
was skipped; (b) a module whose recorded entry set is empty lands in
exactly one signature group, the one keyed by the all-`'_'` signature,
so it is not dropped from the automatic chunks. -/
theorem c10_skipped_modules_kept :
    (∀ (G : ModuleGraph) (fuel fuelC entry : Nat)
      (dem : List (Nat × List Nat)) (aem0 : List (Nat × List Nat))
      (manual static : List Nat) (dynMap : List (Nat × List Nat)) (m : Nat),
      m ∈ assignEntryVisited G fuel fuelC entry dem manual static dynMap →
      m ∈ (assignEntryToStaticDependencies G fuel fuelC entry dem aem0
        manual static dynMap).map Prod.fst) ∧
    (∀ (allEntries : List Nat) (aem : List (Nat × List Nat)) (m : Nat),
      (aem.map Prod.fst).Nodup → (m, ([] : List Nat)) ∈ aem →
      (getChunkModulesBySignature aem allEntries).countP (fun g => g.2.contains m) = 1 ∧
      ∀ g ∈ getChunkModulesBySignature aem allEntries, m ∈ g.2 →
        g.1 = List.replicate allEntries.length CHAR_INDEPENDENT) := by
  constructor
  · intro G fuel fuelC entry dem aem0 manual static dynMap m hm
    exact visited_subset_keys_aux G fuelC entry (dynMap.lookup entry) dem manual static
      dynMap fuel [entry] [entry] aem0 m hm
  · intro allEntries aem m hnd hmem
    have hcount : ((aem.map Prod.fst).count m) = 1 := by
      have h1 : m ∈ aem.map Prod.fst := List.mem_map_of_mem Prod.fst hmem
      have h2 := List.nodup_iff_count_le_one.1 hnd m
      have h3 := List.count_pos_iff.2 h1
      omega
    have hflat : (((getChunkModulesBySignature aem allEntries).map Prod.snd).flatten).count m
        = 1 := by
      rw [getChunkModulesBySignature, count_flatten_groups]
      simpa using hcount
    refine ⟨countP_contains_eq_one _ m hflat, ?_⟩
    intro g hg hmg
    obtain ⟨es, hes, hsig⟩ := mem_getChunkModulesBySignature aem allEntries g hg m hmg
    have : aem.lookup m = some es := lookup_eq_some_of_nodup aem m es hnd hes
    have h0 : aem.lookup m = some [] := lookup_eq_some_of_nodup aem m [] hnd hmem
    rw [this] at h0
    injection h0 with h0
    rw [h0] at hsig
    rw [← hsig, buildSignature_nil_assigned]

/-- Witness for C10 at a concrete map: module 7 has an empty entry set
and lands exactly in the all-underscore group. -/
theorem c10_skipped_modules_kept_witness :
    (getChunkModulesBySignature [(5, [0]), (7, [])] [0]).countP
      (fun g => g.2.contains 7) = 1 :=
  (c10_skipped_modules_kept.2 [0] [(5, [0]), (7, [])] 7 (by decide) (by decide)).1

/- ### Claim C4 -/

/-- Equal signatures over the same entry order mean equal membership of
each entry of that order in the two assigned-entry sets. -/
theorem buildSignature_inj (aE es1 es2 : List Nat)
    (h : buildSignature aE es1 = buildSignature aE es2) :
    ∀ e ∈ aE, (e ∈ es1 ↔ e ∈ es2) := by
  intro e he
  have := List.map_inj_left.1 h e he
  by_cases h1 : es1.contains e = true <;> by_cases h2 : es2.contains e = true
  · exact ⟨fun _ => List.elem_iff.1 h2, fun _ => List.elem_iff.1 h1⟩
  · rw [if_pos h1, if_neg h2] at this
    exact absurd this (by decide)
  · rw [if_neg h1, if_pos h2] at this
    exact absurd this (by decide)
  · constructor
    · intro hmem; exact absurd (List.elem_iff.2 hmem) h1
    · intro hmem; exact absurd (List.elem_iff.2 hmem) h2

/-- C4: with `minChunkSize == 0` the automatic output is exactly one
`{alias: null, modules}` chunk per signature group, and any two modules
of one output chunk agree on which entries they are assigned to. -/
theorem c4_min_zero_signature_groups (G : ModuleGraph) (allEntries : List Nat)
    (aem : List (Nat × List Nat))
    (hkeys : (aem.map Prod.fst).Nodup)
    (hsub : ∀ p ∈ aem, ∀ e ∈ p.2, e ∈ allEntries) :
    createChunks G allEntries aem 0 =
      (getChunkModulesBySignature aem allEntries).map
        (fun g => ((none : Option String), g.2)) ∧
    ∀ C ∈ createChunks G allEntries aem 0, ∀ m1 ∈ C.2, ∀ m2 ∈ C.2,
      ∀ es1 es2, (m1, es1) ∈ aem → (m2, es2) ∈ aem →
        ∀ e, e ∈ es1 ↔ e ∈ es2 := by
  have hform : createChunks G allEntries aem 0 =
      (getChunkModulesBySignature aem allEntries).map
        (fun g => ((none : Option String), g.2)) := by
    simp [createChunks]
  refine ⟨hform, ?_⟩
  intro C hC m1 hm1 m2 hm2 es1 es2 hes1 hes2 e
  rw [hform] at hC
  obtain ⟨g, hg, hCg⟩ := List.mem_map.1 hC
  rw [← hCg] at hm1 hm2
  simp only at hm1 hm2
  obtain ⟨fs1, hfs1, hsig1⟩ := mem_getChunkModulesBySignature aem allEntries g hg m1 hm1
  obtain ⟨fs2, hfs2, hsig2⟩ := mem_getChunkModulesBySignature aem allEntries g hg m2 hm2
  have e1 : fs1 = es1 := by
    have a1 := lookup_eq_some_of_nodup aem m1 fs1 hkeys hfs1
    have a2 := lookup_eq_some_of_nodup aem m1 es1 hkeys hes1
    rw [a1] at a2
    injection a2
  have e2 : fs2 = es2 := by
    have a1 := lookup_eq_some_of_nodup aem m2 fs2 hkeys hfs2
    have a2 := lookup_eq_some_of_nodup aem m2 es2 hkeys hes2
    rw [a1] at a2
    injection a2
  rw [← e1, ← e2]
  have hsig : buildSignature allEntries fs1 = buildSignature allEntries fs2 := by
    rw [hsig1, hsig2]
  constructor
  · intro hmem
    have he : e ∈ allEntries := hsub (m1, fs1) hfs1 e hmem
    exact (buildSignature_inj allEntries fs1 fs2 hsig e he).1 hmem
  · intro hmem
    have he : e ∈ allEntries := hsub (m2, fs2) hfs2 e hmem
    exact (buildSignature_inj allEntries fs1 fs2 hsig e he).2 hmem

/-- Witness for C4 on a concrete assigned-entries map. -/
theorem c4_min_zero_signature_groups_witness :
    createChunks exampleGraphA [0, 1] [(5, [0]), (6, [0]), (7, [1])] 0 =
      (getChunkModulesBySignature [(5, [0]), (6, [0]), (7, [1])] [0, 1]).map
        (fun g => ((none : Option String), g.2)) :=
  (c4_min_zero_signature_groups exampleGraphA [0, 1] [(5, [0]), (6, [0]), (7, [1])]
    (by decide) (by decide)).1

/- ### Properties of the candidate scan -/

theorem findTargetAux_some_spec (source : ChunkDescription) :
    ∀ (cands : List ChunkDescription) (closest : Option ChunkDescription) (cd : WithTop Nat)
      (t : ChunkDescription), findTargetAux source cands closest cd = some t →
      closest = some t ∨ (t ∈ cands ∧ mergeDistance source t ≠ ⊤) := by
  intro cands
  induction cands with
  | nil => intro closest cd t ht; exact Or.inl ht
  | cons c cs ih =>
    intro closest cd t ht
    by_cases hid : c.id = source.id
    · rw [findTargetAux, if_pos hid] at ht
      rcases ih closest cd t ht with h | ⟨h1, h2⟩
      · exact Or.inl h
      · exact Or.inr ⟨List.mem_cons_of_mem _ h1, h2⟩
    · rw [findTargetAux, if_neg hid] at ht
      simp only at ht
      by_cases hd1 : mergeDistance source c = 1
      · rw [if_pos hd1] at ht
        injection ht with ht
        subst ht
        refine Or.inr ⟨List.mem_cons_self _ _, ?_⟩
        rw [hd1]
        decide
      · rw [if_neg hd1] at ht
        by_cases hlt : mergeDistance source c < cd
        · rw [if_pos hlt] at ht
          rcases ih _ _ t ht with h | ⟨h1, h2⟩
          · injection h with h
            subst h
            refine Or.inr ⟨List.mem_cons_self _ _, ?_⟩
            exact LT.lt.ne_top (lt_of_lt_of_le hlt le_top)
          · exact Or.inr ⟨List.mem_cons_of_mem _ h1, h2⟩
        · rw [if_neg hlt] at ht
          rcases ih closest cd t ht with h | ⟨h1, h2⟩
          · exact Or.inl h
          · exact Or.inr ⟨List.mem_cons_of_mem _ h1, h2⟩

/-- A chosen merge target is one of the candidates and its distance is
finite. -/
theorem findTarget_spec (source : ChunkDescription) (cands : List ChunkDescription)
    (t : ChunkDescription) (h : findTarget source cands = some t) :
    t ∈ cands ∧ mergeDistance source t ≠ ⊤ := by
  rcases findTargetAux_some_spec source cands none ⊤ t h with h1 | h1
  · simp at h1
  · exact h1

theorem findTargetAux_min_spec (source : ChunkDescription) :
    ∀ (cands : List ChunkDescription) (closest : Option ChunkDescription) (cd : WithTop Nat),
      (∀ c ∈ cands, c.id ≠ source.id → mergeDistance source c ≠ 1) →
      (∀ c0, closest = some c0 → mergeDistance source c0 = cd) →
      ∀ t, findTargetAux source cands closest cd = some t →
        ((t ∈ cands ∧ mergeDistance source t < cd ∧
           (∀ c ∈ cands, c.id ≠ source.id → mergeDistance source t ≤ mergeDistance source c) ∧
           ∃ l1 l2, cands = l1 ++ t :: l2 ∧
             ∀ c ∈ l1, c.id ≠ source.id → mergeDistance source t < mergeDistance source c)
         ∨ (closest = some t ∧
            ∀ c ∈ cands, c.id ≠ source.id → cd ≤ mergeDistance source c)) := by
  intro cands
  induction cands with
  | nil =>
    intro closest cd _ _ t ht
    exact Or.inr ⟨ht, by simp⟩
  | cons c cs ih =>
    intro closest cd h1 hcpl t ht
    by_cases hid : c.id = source.id
    · rw [findTargetAux, if_pos hid] at ht
      have h1r : ∀ c2 ∈ cs, c2.id ≠ source.id → mergeDistance source c2 ≠ 1 :=
        fun c2 hc2 => h1 c2 (List.mem_cons_of_mem _ hc2)
      rcases ih closest cd h1r hcpl t ht with
        ⟨hmem, hlt, hmin, l1, l2, hsplit, hstrict⟩ | ⟨hcl, hall⟩
      · refine Or.inl ⟨List.mem_cons_of_mem _ hmem, hlt, ?_, c :: l1, l2, by simp [hsplit], ?_⟩
        · intro c2 hc2 hcid
          rcases List.mem_cons.1 hc2 with rfl | hc2
          · exact absurd hid hcid
          · exact hmin c2 hc2 hcid
        · intro c2 hc2 hcid
          rcases List.mem_cons.1 hc2 with rfl | hc2
          · exact absurd hid hcid
          · exact hstrict c2 hc2 hcid
      · refine Or.inr ⟨hcl, ?_⟩
        intro c2 hc2 hcid
        rcases List.mem_cons.1 hc2 with rfl | hc2
        · exact absurd hid hcid
        · exact hall c2 hc2 hcid
    · rw [findTargetAux, if_neg hid] at ht
      simp only at ht
      have hd1 : mergeDistance source c ≠ 1 := h1 c (List.mem_cons_self _ _) hid
      rw [if_neg hd1] at ht
      have h1r : ∀ c2 ∈ cs, c2.id ≠ source.id → mergeDistance source c2 ≠ 1 :=
        fun c2 hc2 => h1 c2 (List.mem_cons_of_mem _ hc2)
      by_cases hlt : mergeDistance source c < cd
      · rw [if_pos hlt] at ht
        have hcpl2 : ∀ c0, (some c : Option ChunkDescription) = some c0 →
            mergeDistance source c0 = mergeDistance source c := by
          intro c0 h
          injection h with h
          rw [h]
        rcases ih (some c) (mergeDistance source c) h1r hcpl2 t ht with
          ⟨hmem, hlt2, hmin, l1, l2, hsplit, hstrict⟩ | ⟨hcl, hall⟩
        · refine Or.inl ⟨List.mem_cons_of_mem _ hmem, hlt2.trans hlt, ?_,
            c :: l1, l2, by simp [hsplit], ?_⟩
          · intro c2 hc2 hcid
            rcases List.mem_cons.1 hc2 with rfl | hc2
            · exact le_of_lt hlt2
            · exact hmin c2 hc2 hcid
          · intro c2 hc2 hcid
            rcases List.mem_cons.1 hc2 with rfl | hc2
            · exact hlt2
            · exact hstrict c2 hc2 hcid
        · injection hcl with hcl
          subst hcl
          refine Or.inl ⟨List.mem_cons_self _ _, hlt, ?_, [], cs, rfl, by simp⟩
          intro c2 hc2 hcid
          rcases List.mem_cons.1 hc2 with rfl | hc2
          · exact le_refl _
          · exact hall c2 hc2 hcid
      · rw [if_neg hlt] at ht
        have hge : cd ≤ mergeDistance source c := not_lt.1 hlt
        rcases ih closest cd h1r hcpl t ht with
          ⟨hmem, hlt2, hmin, l1, l2, hsplit, hstrict⟩ | ⟨hcl, hall⟩
        · refine Or.inl ⟨List.mem_cons_of_mem _ hmem, hlt2, ?_,
            c :: l1, l2, by simp [hsplit], ?_⟩
          · intro c2 hc2 hcid
            rcases List.mem_cons.1 hc2 with rfl | hc2
            · exact le_of_lt (lt_of_lt_of_le hlt2 hge)
            · exact hmin c2 hc2 hcid
          · intro c2 hc2 hcid
            rcases List.mem_cons.1 hc2 with rfl | hc2
            · exact lt_of_lt_of_le hlt2 hge
            · exact hstrict c2 hc2 hcid
        · refine Or.inr ⟨hcl, ?_⟩
          intro c2 hc2 hcid
          rcases List.mem_cons.1 hc2 with rfl | hc2
          · exact hge
          · exact hall c2 hc2 hcid

/- ### Claim C3 -/

/-- The small side-effect source chunk of the C3 counterexample. -/
def exampleChunkS : ChunkDescription := ⟨0, [0], false, ['X', '_'], 1⟩

/-- A candidate at distance exactly 1 from `exampleChunkS`. -/
def exampleChunkT1 : ChunkDescription := ⟨1, [1], true, ['_', '_'], 1⟩

/-- A candidate at distance 0 (identical signature) from
`exampleChunkS`, listed after `exampleChunkT1`. -/
def exampleChunkT2 : ChunkDescription := ⟨2, [2], true, ['X', '_'], 1⟩

/-- C3 counterexample: the scan takes the distance-1 candidate
`exampleChunkT1` immediately and passes over the distance-0 candidate
`exampleChunkT2`; one step of the merge pass indeed merges the source
into `exampleChunkT1`, leaving `exampleChunkT2` untouched, so the
chosen target does not minimize the signature distance. -/
theorem c3_distance_one_shortcut_counterexample :
    findTarget exampleChunkS [exampleChunkT1, exampleChunkT2] = some exampleChunkT1 ∧
    mergeDistance exampleChunkS exampleChunkT1 = (1 : WithTop Nat) ∧
    mergeDistance exampleChunkS exampleChunkT2 = (0 : WithTop Nat) ∧
    (mergeChunksAux 10 .smallSideEffect [.smallPure, .bigPure] 1
        ⟨[exampleChunkT1, exampleChunkT2], [exampleChunkS], [], []⟩ [0]).smallPure
      = [exampleChunkT2] ∧
    (mergeChunksAux 10 .smallSideEffect [.smallPure, .bigPure] 1
        ⟨[exampleChunkT1, exampleChunkT2], [exampleChunkS], [], []⟩ [0]).smallSideEffect
      = [⟨1, [1, 0], false, ['X', '_'], 2⟩] := by
  decide

/-- C3 amended: when no candidate sits at distance exactly 1, the
chosen target does minimize the signature distance over all candidates,
with ties broken by iteration order (the first minimal candidate wins);
a distance-1 candidate, when present, preempts the scan and may be
chosen over a strictly closer one. -/
theorem c3_closest_target_amended (source : ChunkDescription)
    (cands : List ChunkDescription)
    (h1 : ∀ c ∈ cands, c.id ≠ source.id → mergeDistance source c ≠ 1)
    (t : ChunkDescription) (ht : findTarget source cands = some t) :
    t ∈ cands ∧
    (∀ c ∈ cands, c.id ≠ source.id → mergeDistance source t ≤ mergeDistance source c) ∧
    ∃ l1 l2, cands = l1 ++ t :: l2 ∧
      ∀ c ∈ l1, c.id ≠ source.id → mergeDistance source t < mergeDistance source c := by
  rcases findTargetAux_min_spec source cands none ⊤ h1 (fun c0 h => by simp at h) t ht with
    ⟨hmem, _, hmin, hsplit⟩ | ⟨h, _⟩
  · exact ⟨hmem, hmin, hsplit⟩
  · simp at h

/-- Witness for the amended C3: with the distance-1 candidate removed,
the distance-0 candidate is chosen and minimizes. -/
theorem c3_closest_target_amended_witness :
    exampleChunkT2 ∈ [exampleChunkT2] ∧
    (∀ c ∈ [exampleChunkT2], c.id ≠ exampleChunkS.id →
      mergeDistance exampleChunkS exampleChunkT2 ≤ mergeDistance exampleChunkS c) ∧
    ∃ l1 l2, [exampleChunkT2] = l1 ++ exampleChunkT2 :: l2 ∧
      ∀ c ∈ l1, c.id ≠ exampleChunkS.id →
        mergeDistance exampleChunkS exampleChunkT2 < mergeDistance exampleChunkS c :=
  c3_closest_target_amended exampleChunkS [exampleChunkT2] (by decide) exampleChunkT2
    (by decide)

/- ### Claim C6 -/

theorem mem_insertIfAbsent (x y : Nat) (l : List Nat) :
    x ∈ insertIfAbsent y l ↔ x ∈ l ∨ x = y := by
  unfold insertIfAbsent
  by_cases hc : l.contains y = true
  · rw [if_pos hc]
    constructor
    · exact Or.inl
    · rintro (h | rfl)
      · exact h
      · exact List.elem_iff.1 hc
  · rw [if_neg hc]
    simp

theorem mem_dedupList (l : List Nat) (x : Nat) : x ∈ dedupList l ↔ x ∈ l := by
  have key : ∀ (l acc : List Nat) (x : Nat),
      x ∈ l.foldl (fun acc y => insertIfAbsent y acc) acc ↔ x ∈ acc ∨ x ∈ l := by
    intro l
    induction l with
    | nil => intro acc x; simp
    | cons y ys ih =>
      intro acc x
      simp only [List.foldl_cons, ih, mem_insertIfAbsent]
      constructor
      · rintro ((h | rfl) | h)
        · exact Or.inl h
        · exact Or.inr (List.mem_cons_self _ _)
        · exact Or.inr (List.mem_cons_of_mem _ h)
      · rintro (h | h)
        · exact Or.inl (Or.inl h)
        · rcases List.mem_cons.1 h with rfl | h
          · exact Or.inl (Or.inr rfl)
          · exact Or.inr h
  simpa [dedupList] using key l [] x

theorem not_mem_of_contains_eq_false {l : List Nat} {x : Nat}
    (h : l.contains x = false) : x ∉ l := fun hmem => by
  have h2 : l.contains x = true := List.elem_iff.2 hmem
  rw [h2] at h
  exact absurd h (by decide)

theorem mem_manualEnqueue (G : ModuleGraph) (marked : List Nat) :
    ∀ (deps pend : List Nat) (x : Nat),
      x ∈ deps.foldl
        (fun pend d =>
          if G.isExternal d || marked.contains d || pend.contains d then pend
          else pend ++ [d]) pend →
      x ∈ pend ∨ (x ∈ deps ∧ G.isExternal x = false ∧ marked.contains x = false) := by
  intro deps
  induction deps with
  | nil => intro pend x hx; exact Or.inl hx
  | cons d ds ih =>
    intro pend x hx
    simp only [List.foldl_cons] at hx
    by_cases hc : (G.isExternal d || marked.contains d || pend.contains d) = true
    · rw [if_pos hc] at hx
      rcases ih pend x hx with h | ⟨h1, h2, h3⟩
      · exact Or.inl h
      · exact Or.inr ⟨List.mem_cons_of_mem _ h1, h2, h3⟩
    · rw [if_neg hc] at hx
      simp only [Bool.or_eq_true, not_or, Bool.not_eq_true] at hc
      rcases ih _ x hx with h | ⟨h1, h2, h3⟩
      · rcases List.mem_append.1 h with h | h
        · exact Or.inl h
        · simp only [List.mem_singleton] at h
          subst h
          exact Or.inr ⟨List.mem_cons_self _ _, hc.1.1, hc.1.2⟩
      · exact Or.inr ⟨List.mem_cons_of_mem _ h1, h2, h3⟩

theorem nodup_manualEnqueue (G : ModuleGraph) (marked : List Nat) :
    ∀ (deps pend : List Nat), pend.Nodup →
      (deps.foldl
        (fun pend d =>
          if G.isExternal d || marked.contains d || pend.contains d then pend
          else pend ++ [d]) pend).Nodup := by
  intro deps
  induction deps with
  | nil => intro pend h; exact h
  | cons d ds ih =>
    intro pend h
    simp only [List.foldl_cons]
    by_cases hc : (G.isExternal d || marked.contains d || pend.contains d) = true
    · rw [if_pos hc]
      exact ih pend h
    · rw [if_neg hc]
      refine ih _ ?_
      simp only [Bool.or_eq_true, not_or, Bool.not_eq_true] at hc
      have hd : d ∉ pend := not_mem_of_contains_eq_false hc.2
      simp [List.nodup_append, h, hd]

/-- Specification of the manual-chunk worklist: the bucket is extended
by a duplicate-free contribution whose members become marked, every
contributed module was either queued from the start or unmarked when it
was discovered, and the final marked set is the initial one plus the
contribution. -/
theorem addStaticDependenciesToManualChunkAux_spec (G : ModuleGraph) :
    ∀ (fuel : Nat) (pending bucket marked : List Nat),
      pending.Nodup →
      (∀ p ∈ pending, p ∉ bucket) →
      bucket.Nodup →
      (∀ x ∈ bucket, x ∈ marked) →
      ∃ P,
        (addStaticDependenciesToManualChunkAux G fuel pending bucket marked).1
          = bucket ++ P ∧
        (bucket ++ P).Nodup ∧
        (∀ x ∈ bucket ++ P,
          x ∈ (addStaticDependenciesToManualChunkAux G fuel pending bucket marked).2) ∧
        (∀ x, x ∈ (addStaticDependenciesToManualChunkAux G fuel pending bucket marked).2
          ↔ (x ∈ marked ∨ x ∈ P)) ∧
        (∀ x ∈ P, x ∈ pending ∨ x ∉ marked) := by
  intro fuel
  induction fuel with
  | zero =>
    intro pending bucket marked _ _ hbn hbm
    exact ⟨[], by simp [addStaticDependenciesToManualChunkAux], by simpa using hbn,
      by simpa [addStaticDependenciesToManualChunkAux] using hbm,
      by simp [addStaticDependenciesToManualChunkAux], by simp⟩
  | succ fuel ih =>
    intro pending bucket marked hpn hpb hbn hbm
    cases pending with
    | nil =>
      exact ⟨[], by simp [addStaticDependenciesToManualChunkAux], by simpa using hbn,
        by simpa [addStaticDependenciesToManualChunkAux] using hbm,
        by simp [addStaticDependenciesToManualChunkAux], by simp⟩
    | cons m rest =>
      simp only [addStaticDependenciesToManualChunkAux]
      have hmrest : m ∉ rest := (List.nodup_cons.1 hpn).1
      have hrestn : rest.Nodup := (List.nodup_cons.1 hpn).2
      have hmb : m ∉ bucket := hpb m (List.mem_cons_self _ _)
      have hb1n : (bucket ++ [m]).Nodup := by simp [List.nodup_append, hbn, hmb]
      have hb1m : ∀ x ∈ bucket ++ [m], x ∈ insertIfAbsent m marked := by
        intro x hx
        rcases List.mem_append.1 hx with hx | hx
        · exact (mem_insertIfAbsent x m marked).2 (Or.inl (hbm x hx))
        · simp only [List.mem_singleton] at hx
          exact (mem_insertIfAbsent x m marked).2 (Or.inr hx)
      have hp1n : ((G.dependencies m).foldl
          (fun pend d =>
            if G.isExternal d || (insertIfAbsent m marked).contains d || pend.contains d
            then pend else pend ++ [d]) rest).Nodup :=
        nodup_manualEnqueue G (insertIfAbsent m marked) (G.dependencies m) rest hrestn
      have hp1b : ∀ p ∈ (G.dependencies m).foldl
          (fun pend d =>
            if G.isExternal d || (insertIfAbsent m marked).contains d || pend.contains d
            then pend else pend ++ [d]) rest, p ∉ bucket ++ [m] := by
        intro p hp
        rcases mem_manualEnqueue G (insertIfAbsent m marked) (G.dependencies m) rest p hp with
          hpr | ⟨_, _, h3⟩
        · intro hmem
          rcases List.mem_append.1 hmem with hmem | hmem
          · exact hpb p (List.mem_cons_of_mem _ hpr) hmem
          · simp only [List.mem_singleton] at hmem
            subst hmem
            exact hmrest hpr
        · intro hmem
          exact not_mem_of_contains_eq_false h3 (hb1m p hmem)
      obtain ⟨P2, e1, e2, e3, e4, e5⟩ := ih _ (bucket ++ [m]) (insertIfAbsent m marked)
        hp1n hp1b hb1n hb1m
      refine ⟨m :: P2, ?_, ?_, ?_, ?_, ?_⟩
      · rw [e1]; simp
      · have hre : bucket ++ m :: P2 = (bucket ++ [m]) ++ P2 :=
          (List.append_assoc bucket [m] P2).symm
        rw [hre]
        exact e2
      · intro x hx
        refine e3 x ?_
        have hre : bucket ++ m :: P2 = (bucket ++ [m]) ++ P2 :=
          (List.append_assoc bucket [m] P2).symm
        rw [← hre]
        exact hx
      · intro x
        rw [e4 x, mem_insertIfAbsent]
        constructor
        · rintro ((h | rfl) | h)
          · exact Or.inl h
          · exact Or.inr (List.mem_cons_self _ _)
          · exact Or.inr (List.mem_cons_of_mem _ h)
        · rintro (h | h)
          · exact Or.inl (Or.inl h)
          · rcases List.mem_cons.1 h with rfl | h
            · exact Or.inl (Or.inr rfl)
            · exact Or.inr h
      · intro x hx
        rcases List.mem_cons.1 hx with rfl | hx
        · exact Or.inl (List.mem_cons_self _ _)
        · rcases e5 x hx with h | h
          · rcases mem_manualEnqueue G (insertIfAbsent m marked) (G.dependencies m) rest x h
              with h | ⟨_, _, h3⟩
            · exact Or.inl (List.mem_cons_of_mem _ h)
            · refine Or.inr fun hmem => ?_
              exact not_mem_of_contains_eq_false h3
                ((mem_insertIfAbsent x m marked).2 (Or.inl hmem))
          · exact Or.inr fun hmem =>
              h ((mem_insertIfAbsent x m marked).2 (Or.inl hmem))

theorem lookup_mem_string :
    ∀ (l : List (String × List Nat)) (a : String) (v : List Nat),
      l.lookup a = some v → (a, v) ∈ l := by
  intro l
  induction l with
  | nil => intro a v h; simp [List.lookup] at h
  | cons p rest ih =>
    intro a v h
    obtain ⟨k, w⟩ := p
    by_cases hk : a = k
    · subst hk
      simp [List.lookup] at h
      subst h
      exact List.mem_cons_self _ _
    · have hbeq : (a == k) = false := by
        simp [beq_iff_eq]
        exact hk
      rw [List.lookup, hbeq] at h
      exact List.mem_cons_of_mem _ (ih a v h)

theorem count_le_flatten :
    ∀ (L : List (List Nat)) (l : List Nat) (x : Nat), l ∈ L →
      l.count x ≤ L.flatten.count x := by
  intro L
  induction L with
  | nil => intro l x h; simp at h
  | cons w rest ih =>
    intro l x h
    simp only [List.flatten_cons, List.count_append]
    rcases List.mem_cons.1 h with rfl | h
    · omega
    · have := ih l x h
      omega

theorem lookup_getD_count_le (buckets : List (String × List Nat)) (a : String) (x : Nat) :
    (((buckets.lookup a).getD []).count x) ≤ ((buckets.map Prod.snd).flatten).count x := by
  cases hl : buckets.lookup a with
  | none => simp
  | some v =>
    simp only [Option.getD_some]
    exact count_le_flatten _ v x (List.mem_map_of_mem Prod.snd (lookup_mem_string buckets a v hl))

theorem lookup_getD_subset (buckets : List (String × List Nat)) (a : String) (x : Nat)
    (hx : x ∈ (buckets.lookup a).getD []) : x ∈ (buckets.map Prod.snd).flatten := by
  have h1 : 0 < ((buckets.lookup a).getD []).count x := List.count_pos_iff.2 hx
  have h2 := lookup_getD_count_le buckets a x
  exact List.count_pos_iff.1 (by omega)

theorem count_flatten_updateStringAssoc :
    ∀ (buckets : List (String × List Nat)) (a : String) (v : List Nat) (x : Nat),
      (((updateStringAssoc buckets a v).map Prod.snd).flatten).count x +
          (((buckets.lookup a).getD []).count x)
        = ((buckets.map Prod.snd).flatten).count x + v.count x := by
  intro buckets
  induction buckets with
  | nil => intro a v x; simp [updateStringAssoc, List.lookup]
  | cons p rest ih =>
    intro a v x
    obtain ⟨k, w⟩ := p
    by_cases hk : k = a
    · have hbeq : (a == k) = true := beq_iff_eq.2 hk.symm
      simp only [updateStringAssoc, if_pos hk, List.map_cons, List.flatten_cons,
        List.count_append, List.lookup, hbeq, Option.getD_some]
      omega
    · have hbeq : (a == k) = false := by
        rw [beq_eq_false_iff_ne]
        exact fun h => hk h.symm
      simp only [updateStringAssoc, if_neg hk, List.map_cons, List.flatten_cons,
        List.count_append, List.lookup, hbeq]
      have := ih a v x
      omega

/-- Invariant of the manual-chunk phase: processing the alias pairs
keeps every module's total count across all alias buckets at most 1. -/
theorem buildManual_fold_counts (G : ModuleGraph) (fuel : Nat) :
    ∀ (pairs : List (Nat × String)) (buckets : List (String × List Nat)) (marked : List Nat),
      (pairs.map Prod.fst).Nodup →
      (∀ x : Nat, (((buckets.map Prod.snd).flatten).count x) ≤ 1) →
      (∀ x ∈ (buckets.map Prod.snd).flatten, x ∈ marked) →
      (∀ p ∈ pairs, p.1 ∈ marked) →
      (∀ p ∈ pairs, p.1 ∉ (buckets.map Prod.snd).flatten) →
      ∀ x : Nat,
        (((pairs.foldl
            (fun acc p =>
              let bucket := (acc.1.lookup p.2).getD []
              let r := addStaticDependenciesToManualChunk G fuel p.1 bucket acc.2
              (updateStringAssoc acc.1 p.2 r.1, r.2)) (buckets, marked)).1.map
          Prod.snd).flatten).count x ≤ 1 := by
  intro pairs
  induction pairs with
  | nil => intro buckets marked _ hcount _ _ _ x; exact hcount x
  | cons p rest ih =>
    intro buckets marked hkeys hcount hbm hpm hpf x
    obtain ⟨entry, al⟩ := p
    simp only [List.foldl_cons]
    have hentry_nf : entry ∉ (buckets.map Prod.snd).flatten :=
      hpf (entry, al) (List.mem_cons_self _ _)
    have hold_sub : ∀ y ∈ (buckets.lookup al).getD [], y ∈ (buckets.map Prod.snd).flatten :=
      fun y hy => lookup_getD_subset buckets al y hy
    have hold_nodup : ((buckets.lookup al).getD []).Nodup := by
      rw [List.nodup_iff_count_le_one]
      intro y
      have := lookup_getD_count_le buckets al y
      have := hcount y
      omega
    have hentry_old : entry ∉ (buckets.lookup al).getD [] :=
      fun h => hentry_nf (hold_sub entry h)
    obtain ⟨P, e1, e2, e3, e4, e5⟩ := addStaticDependenciesToManualChunkAux_spec G fuel
      [entry] ((buckets.lookup al).getD []) marked (by simp)
      (by intro q hq; simp only [List.mem_singleton] at hq; subst hq; exact hentry_old)
      hold_nodup (fun y hy => hbm y (hold_sub y hy))
    have hPnodup : P.Nodup := (List.nodup_append.1 e2).2.1
    have hkeys_tl : (rest.map Prod.fst).Nodup := (List.nodup_cons.1 (by simpa using hkeys)).2
    have hentry_rest : entry ∉ rest.map Prod.fst :=
      (List.nodup_cons.1 (by simpa using hkeys)).1
    -- counts in the updated buckets
    have hcnt_upd : ∀ y : Nat,
        ((((updateStringAssoc buckets al
            (addStaticDependenciesToManualChunk G fuel entry
              ((buckets.lookup al).getD []) marked).1).map Prod.snd).flatten).count y)
          = ((buckets.map Prod.snd).flatten).count y + P.count y := by
      intro y
      have h := count_flatten_updateStringAssoc buckets al
        (addStaticDependenciesToManualChunk G fuel entry
          ((buckets.lookup al).getD []) marked).1 y
      have h2 : ((addStaticDependenciesToManualChunk G fuel entry
          ((buckets.lookup al).getD []) marked).1).count y
          = (((buckets.lookup al).getD []).count y) + P.count y := by
        rw [show (addStaticDependenciesToManualChunk G fuel entry
            ((buckets.lookup al).getD []) marked).1
          = (buckets.lookup al).getD [] ++ P from e1]
        rw [List.count_append]
      omega
    have hP_cnt_zero : ∀ y ∈ P, ((buckets.map Prod.snd).flatten).count y = 0 := by
      intro y hy
      rcases e5 y hy with h | h
      · simp only [List.mem_singleton] at h
        subst h
        exact List.count_eq_zero.2 hentry_nf
      · exact List.count_eq_zero.2 fun hmem => h (hbm y hmem)
    refine ih _ _ hkeys_tl ?_ ?_ ?_ ?_ x
    · intro y
      rw [hcnt_upd y]
      by_cases hyP : y ∈ P
      · have h1 := hP_cnt_zero y hyP
        have h2 := List.nodup_iff_count_le_one.1 hPnodup y
        omega
      · have h1 : P.count y = 0 := List.count_eq_zero.2 hyP
        have := hcount y
        omega
    · intro y hy
      have h1 : 0 < ((((updateStringAssoc buckets al
          (addStaticDependenciesToManualChunk G fuel entry
            ((buckets.lookup al).getD []) marked).1).map Prod.snd).flatten).count y) :=
        List.count_pos_iff.2 hy
      rw [hcnt_upd y] at h1
      by_cases hyP : y ∈ P
      · refine e3 y ?_
        exact List.mem_append_right _ hyP
      · have h2 : P.count y = 0 := List.count_eq_zero.2 hyP
        have h3 : y ∈ (buckets.map Prod.snd).flatten := List.count_pos_iff.1 (by omega)
        exact (e4 y).2 (Or.inl (hbm y h3))
    · intro q hq
      exact (e4 q.1).2 (Or.inl (hpm q (List.mem_cons_of_mem _ hq)))
    · intro q hq
      intro hmem
      have h1 : 0 < ((((updateStringAssoc buckets al
          (addStaticDependenciesToManualChunk G fuel entry
            ((buckets.lookup al).getD []) marked).1).map Prod.snd).flatten).count q.1) :=
        List.count_pos_iff.2 hmem
      rw [hcnt_upd q.1] at h1
      have h2 : q.1 ∉ (buckets.map Prod.snd).flatten :=
        hpf q (List.mem_cons_of_mem _ hq)
      have h3 : ((buckets.map Prod.snd).flatten).count q.1 = 0 := List.count_eq_zero.2 h2
      have h4 : q.1 ∈ P := List.count_pos_iff.1 (by omega)
      rcases e5 q.1 h4 with h | h
      · simp only [List.mem_singleton] at h
        exact hentry_rest (h ▸ List.mem_map_of_mem Prod.fst hq)
      · exact h (hpm q (List.mem_cons_of_mem _ hq))

theorem exists_index_of_mem {α : Type} :
    ∀ {l : List α} {a : α}, a ∈ l → ∃ i : Nat, l[i]? = some a := by
  intro l
  induction l with
  | nil => intro a h; simp at h
  | cons b t ih =>
    intro a h
    rcases List.mem_cons.1 h with rfl | h
    · exact ⟨0, by simp⟩
    · rcases ih h with ⟨i, hi⟩
      exact ⟨i + 1, by simpa using hi⟩

/-- The alias bucket is write-only during a manual-chunk traversal: the
run appends its discovered modules to whatever bucket it was given, and
the final marked set does not depend on the bucket. -/
theorem manualAux_bucket_append (G : ModuleGraph) :
    ∀ (fuel : Nat) (pending bucket marked : List Nat),
      addStaticDependenciesToManualChunkAux G fuel pending bucket marked
        = (bucket ++ (addStaticDependenciesToManualChunkAux G fuel pending [] marked).1,
            (addStaticDependenciesToManualChunkAux G fuel pending [] marked).2) := by
  intro fuel
  induction fuel with
  | zero => intro pending bucket marked; simp [addStaticDependenciesToManualChunkAux]
  | succ fuel ih =>
    intro pending bucket marked
    cases pending with
    | nil => simp [addStaticDependenciesToManualChunkAux]
    | cons m rest =>
      simp only [addStaticDependenciesToManualChunkAux, List.nil_append]
      generalize insertIfAbsent m marked = MM
      generalize ((G.dependencies m).foldl
        (fun pend d =>
          if G.isExternal d || MM.contains d || pend.contains d then pend
          else pend ++ [d]) rest) = PP
      rw [ih PP (bucket ++ [m]) MM, ih PP [m] MM]
      simp [List.append_assoc]

/-- `addStaticDependenciesToManualChunk` splits into the given bucket
followed by the freshly discovered segment of this run. -/
theorem addStaticDependenciesToManualChunk_split (G : ModuleGraph) (fuel : Nat)
    (e : Nat) (bucket marked : List Nat) :
    addStaticDependenciesToManualChunk G fuel e bucket marked
      = (bucket ++ (addStaticDependenciesToManualChunk G fuel e [] marked).1,
          (addStaticDependenciesToManualChunk G fuel e [] marked).2) :=
  manualAux_bucket_append G fuel [e] bucket marked

theorem lookup_updateStringAssoc_self :
    ∀ (B : List (String × List Nat)) (a : String) (v : List Nat),
      (updateStringAssoc B a v).lookup a = some v := by
  intro B
  induction B with
  | nil => intro a v; simp [updateStringAssoc, List.lookup]
  | cons p rest ih =>
    intro a v
    obtain ⟨k, w⟩ := p
    by_cases hk : k = a
    · subst hk
      simp [updateStringAssoc, List.lookup]
    · have hbeq : (a == k) = false := by
        rw [beq_eq_false_iff_ne]
        exact fun h => hk h.symm
      simp only [updateStringAssoc, if_neg hk, List.lookup, hbeq]
      exact ih a v

theorem lookup_updateStringAssoc_ne :
    ∀ (B : List (String × List Nat)) (a al : String) (v : List Nat), al ≠ a →
      (updateStringAssoc B a v).lookup al = B.lookup al := by
  intro B
  induction B with
  | nil =>
    intro a al v hne
    have hbeq : (al == a) = false := by
      rw [beq_eq_false_iff_ne]
      exact hne
    simp [updateStringAssoc, List.lookup, hbeq]
  | cons p rest ih =>
    intro a al v hne
    obtain ⟨k, w⟩ := p
    by_cases hk : k = a
    · subst hk
      have hbeq : (al == k) = false := by
        rw [beq_eq_false_iff_ne]
        exact hne
      simp [updateStringAssoc, List.lookup, hbeq]
    · simp only [updateStringAssoc, if_neg hk, List.lookup]
      by_cases hak : al = k
      · subst hak
        simp
      · have hbeq : (al == k) = false := by
          rw [beq_eq_false_iff_ne]
          exact hak
        simp only [hbeq]
        exact ih a al v hne

/-- The marked set produced by one manual-chunk run is the initial one
plus the run's own discovered segment. -/
theorem manualRun_marks (G : ModuleGraph) (fuel : Nat) (e : Nat) (M : List Nat) (x : Nat) :
    x ∈ (addStaticDependenciesToManualChunk G fuel e [] M).2
      ↔ x ∈ M ∨ x ∈ (addStaticDependenciesToManualChunk G fuel e [] M).1 := by
  obtain ⟨P, e1, _, _, e4, _⟩ := addStaticDependenciesToManualChunkAux_spec G fuel
    [e] [] M (by simp) (by simp) (by simp) (by simp)
  have h1 : (addStaticDependenciesToManualChunk G fuel e [] M).1 = P := by
    rw [addStaticDependenciesToManualChunk, e1, List.nil_append]
  rw [h1, addStaticDependenciesToManualChunk]
  exact e4 x

/-- Every module a manual-chunk run discovers is either its own seed
entry or was not yet in `modulesInManualChunks` when the run started:
the traversal skips the modules already claimed. -/
theorem manualRun_fresh (G : ModuleGraph) (fuel : Nat) (e : Nat) (M : List Nat) (x : Nat)
    (hx : x ∈ (addStaticDependenciesToManualChunk G fuel e [] M).1) :
    x = e ∨ x ∉ M := by
  obtain ⟨P, e1, _, _, _, e5⟩ := addStaticDependenciesToManualChunkAux_spec G fuel
    [e] [] M (by simp) (by simp) (by simp) (by simp)
  have h1 : (addStaticDependenciesToManualChunk G fuel e [] M).1 = P := by
    rw [addStaticDependenciesToManualChunk, e1, List.nil_append]
  rw [h1] at hx
  rcases e5 x hx with h | h
  · simp only [List.mem_singleton] at h
    exact Or.inl h
  · exact Or.inr h

theorem manualSegmentsFrom_marks_mono (G : ModuleGraph) (fuel : Nat) :
    ∀ (pairs : List (Nat × String)) (M : List Nat) (x : Nat), x ∈ M →
      x ∈ (manualSegmentsFrom G fuel pairs M).2 := by
  intro pairs
  induction pairs with
  | nil => intro M x hx; simpa [manualSegmentsFrom] using hx
  | cons p rest ih =>
    intro M x hx
    simp only [manualSegmentsFrom]
    exact ih _ x ((manualRun_marks G fuel p.1 M x).2 (Or.inl hx))

/-- The segments list lines up with the alias pairs: the segment at
position `i` carries the alias of the pair at position `i`. -/
theorem manualSegmentsFrom_align (G : ModuleGraph) (fuel : Nat) :
    ∀ (pairs : List (Nat × String)) (M : List Nat) (i : Nat),
      ((manualSegmentsFrom G fuel pairs M).1[i]?).map Prod.fst
        = (pairs[i]?).map Prod.snd := by
  intro pairs
  induction pairs with
  | nil => intro M i; simp [manualSegmentsFrom]
  | cons p rest ih =>
    intro M i
    cases i with
    | zero => simp [manualSegmentsFrom]
    | succ i =>
      simp only [manualSegmentsFrom, List.getElem?_cons_succ]
      exact ih _ i

/-- Every element of any discovered segment is either one of the
remaining seed entries or was unmarked when the whole phase started. -/
theorem manualSegmentsFrom_seg_fresh (G : ModuleGraph) (fuel : Nat) :
    ∀ (pairs : List (Nat × String)) (M : List Nat) (j : Nat) (al : String)
      (seg : List Nat) (m : Nat),
      (manualSegmentsFrom G fuel pairs M).1[j]? = some (al, seg) → m ∈ seg →
      m ∈ pairs.map Prod.fst ∨ m ∉ M := by
  intro pairs
  induction pairs with
  | nil => intro M j al seg m hj _; simp [manualSegmentsFrom] at hj
  | cons p rest ih =>
    intro M j al seg m hj hm
    simp only [manualSegmentsFrom] at hj
    cases j with
    | zero =>
      simp only [List.getElem?_cons_zero, Option.some.injEq, Prod.mk.injEq] at hj
      obtain ⟨_, hseg⟩ := hj
      rw [← hseg] at hm
      rcases manualRun_fresh G fuel p.1 M m hm with h | h
      · refine Or.inl ?_
        rw [h]
        exact List.mem_map_of_mem Prod.fst (List.mem_cons_self _ _)
      · exact Or.inr h
    | succ j =>
      simp only [List.getElem?_cons_succ] at hj
      rcases ih _ j al seg m hj hm with h | h
      · refine Or.inl ?_
        simp only [List.map_cons]
        exact List.mem_cons_of_mem _ h
      · exact Or.inr fun hM => h ((manualRun_marks G fuel p.1 M m).2 (Or.inl hM))

/-- A module discovered by the traversal of pair `i` is in the shared
`modulesInManualChunks` before any later pair's traversal starts. -/
theorem manualSegmentsFrom_marked_after (G : ModuleGraph) (fuel : Nat) :
    ∀ (pairs : List (Nat × String)) (M : List Nat) (i j : Nat) (al : String)
      (seg : List Nat) (m : Nat), i < j →
      (manualSegmentsFrom G fuel pairs M).1[i]? = some (al, seg) → m ∈ seg →
      m ∈ (manualSegmentsFrom G fuel (pairs.take j) M).2 := by
  intro pairs
  induction pairs with
  | nil => intro M i j al seg m _ hi _; simp [manualSegmentsFrom] at hi
  | cons p rest ih =>
    intro M i j al seg m hij hi hm
    simp only [manualSegmentsFrom] at hi
    cases j with
    | zero => omega
    | succ j =>
      rw [List.take_succ_cons]
      simp only [manualSegmentsFrom]
      cases i with
      | zero =>
        simp only [List.getElem?_cons_zero, Option.some.injEq, Prod.mk.injEq] at hi
        obtain ⟨_, hseg⟩ := hi
        rw [← hseg] at hm
        exact manualSegmentsFrom_marks_mono G fuel _ _ m
          ((manualRun_marks G fuel p.1 M m).2 (Or.inr hm))
      | succ i =>
        simp only [List.getElem?_cons_succ] at hi
        exact ih _ i j al seg m (Nat.lt_of_succ_lt_succ hij) hi hm

/-- No module is discovered by two different traversals: an earlier
pair's segment is disjoint from every later pair's segment, because the
later traversal skips modules already in `modulesInManualChunks`. -/
theorem manualSegmentsFrom_disjoint (G : ModuleGraph) (fuel : Nat) :
    ∀ (pairs : List (Nat × String)) (M : List Nat),
      (∀ p ∈ pairs, p.1 ∈ M) → (pairs.map Prod.fst).Nodup →
      ∀ (i j : Nat) (al al' : String) (seg seg' : List Nat) (m : Nat), i < j →
        (manualSegmentsFrom G fuel pairs M).1[i]? = some (al, seg) →
        (manualSegmentsFrom G fuel pairs M).1[j]? = some (al', seg') →
        m ∈ seg → m ∉ seg' := by
  intro pairs
  induction pairs with
  | nil => intro M _ _ i j al al' seg seg' m _ hi _ _; simp [manualSegmentsFrom] at hi
  | cons p rest ih =>
    intro M hM hkeys i j al al' seg seg' m hij hi hj hm hm'
    simp only [manualSegmentsFrom] at hi hj
    cases j with
    | zero => omega
    | succ j =>
      simp only [List.getElem?_cons_succ] at hj
      cases i with
      | zero =>
        simp only [List.getElem?_cons_zero, Option.some.injEq, Prod.mk.injEq] at hi
        obtain ⟨_, hseg⟩ := hi
        rw [← hseg] at hm
        have hmark : m ∈ (addStaticDependenciesToManualChunk G fuel p.1 [] M).2 :=
          (manualRun_marks G fuel p.1 M m).2 (Or.inr hm)
        rcases manualSegmentsFrom_seg_fresh G fuel rest _ j al' seg' m hj hm' with h | h
        · rcases manualRun_fresh G fuel p.1 M m hm with he | hnM
          · rw [List.map_cons, List.nodup_cons] at hkeys
            exact hkeys.1 (he ▸ h)
          · rcases List.mem_map.1 h with ⟨q, hq, hq1⟩
            exact hnM (hq1 ▸ hM q (List.mem_cons_of_mem _ hq))
        · exact h hmark
      | succ i =>
        simp only [List.getElem?_cons_succ] at hi
        refine ih _ ?_ ?_ i j al al' seg seg' m (Nat.lt_of_succ_lt_succ hij) hi hj hm hm'
        · intro q hq
          exact (manualRun_marks G fuel p.1 M q.1).2 (Or.inl (hM q (List.mem_cons_of_mem _ hq)))
        · rw [List.map_cons, List.nodup_cons] at hkeys
          exact hkeys.2

/-- The manual-chunk fold decomposes alias by alias: each alias bucket
is what it started as, followed by the concatenation, in input
iteration order, of the segments discovered for the pairs carrying that
alias. -/
theorem buildManual_fold_segments (G : ModuleGraph) (fuel : Nat) :
    ∀ (pairs : List (Nat × String)) (B : List (String × List Nat)) (M : List Nat),
      ((pairs.foldl
          (fun acc p =>
            let bucket := (acc.1.lookup p.2).getD []
            let r := addStaticDependenciesToManualChunk G fuel p.1 bucket acc.2
            (updateStringAssoc acc.1 p.2 r.1, r.2)) (B, M)).2
        = (manualSegmentsFrom G fuel pairs M).2)
      ∧ ∀ al : String,
        (((pairs.foldl
            (fun acc p =>
              let bucket := (acc.1.lookup p.2).getD []
              let r := addStaticDependenciesToManualChunk G fuel p.1 bucket acc.2
              (updateStringAssoc acc.1 p.2 r.1, r.2)) (B, M)).1.lookup al).getD [])
          = ((B.lookup al).getD [])
            ++ ((((manualSegmentsFrom G fuel pairs M).1.filter
                (fun q => q.1 == al)).map Prod.snd).flatten) := by
  intro pairs
  induction pairs with
  | nil =>
    intro B M
    exact ⟨rfl, fun al => by simp [manualSegmentsFrom]⟩
  | cons p rest ih =>
    intro B M
    obtain ⟨e, a⟩ := p
    have hsplit := addStaticDependenciesToManualChunk_split G fuel e
      ((B.lookup a).getD []) M
    have h1 : (addStaticDependenciesToManualChunk G fuel e ((B.lookup a).getD []) M).1
        = ((B.lookup a).getD []) ++ (addStaticDependenciesToManualChunk G fuel e [] M).1 := by
      rw [hsplit]
    have h2 : (addStaticDependenciesToManualChunk G fuel e ((B.lookup a).getD []) M).2
        = (addStaticDependenciesToManualChunk G fuel e [] M).2 := by
      rw [hsplit]
    obtain ⟨ihm, ihb⟩ := ih (updateStringAssoc B a
        (addStaticDependenciesToManualChunk G fuel e ((B.lookup a).getD []) M).1)
      ((addStaticDependenciesToManualChunk G fuel e ((B.lookup a).getD []) M).2)
    constructor
    · simp only [List.foldl_cons]
      rw [ihm, h2]
      simp [manualSegmentsFrom]
    · intro al
      simp only [List.foldl_cons]
      rw [ihb al, h2]
      by_cases hal : a = al
      · subst hal
        rw [lookup_updateStringAssoc_self, h1]
        simp only [Option.getD_some, manualSegmentsFrom]
        simp [List.append_assoc]
      · rw [lookup_updateStringAssoc_ne B a al _ fun h => hal h.symm]
        have hbeq : (a == al) = false := by
          rw [beq_eq_false_iff_ne]
          exact hal
        simp only [manualSegmentsFrom]
        simp [hbeq]

/-- The graph of the C6 concrete scenario: manual entries `0`, `1` and
`2`, where `0` (alias `"a"`) and `1` (alias `"b"`) both depend
statically on module `3`, and `2` repeats the alias `"a"` and pulls in
module `4`. -/
def exampleGraphC6 : ModuleGraph :=
  { exampleGraphA with
    dependencies := fun m =>
      if m = 0 then [3] else if m = 1 then [3] else if m = 2 then [4] else [] }

/-- C6: manual chunk materialization. The segments list lines up with
the alias pairs; every alias bucket is the concatenation, in input
iteration order, of the segments discovered by the traversals of the
entries mapped to that alias, the traversals sharing the threaded
`modulesInManualChunks` (so entries with the same alias share one
bucket in discovery order); the concatenation of all buckets is
duplicate-free; and a module discovered by the traversal of pair `i`
lands in that pair's alias bucket, is claimed by no other pair's
traversal, is already in `modulesInManualChunks` before every later
traversal starts (which is why those skip it), and any bucket
containing it is exactly that first alias's bucket. -/
theorem c6_manual_chunk_first_alias_wins (G : ModuleGraph) (fuel : Nat)
    (pairs : List (Nat × String)) (hkeys : (pairs.map Prod.fst).Nodup) :
    (∀ i : Nat, ((manualChunkSegments G fuel pairs).1[i]?).map Prod.fst
        = (pairs[i]?).map Prod.snd)
    ∧ (∀ al : String,
        (((buildManualChunks G fuel pairs).1.lookup al).getD [])
          = (((manualChunkSegments G fuel pairs).1.filter
              (fun q => q.1 == al)).map Prod.snd).flatten)
    ∧ ((((buildManualChunks G fuel pairs).1.map Prod.snd).flatten).Nodup)
    ∧ (∀ (i : Nat) (al : String) (seg : List Nat) (m : Nat),
        (manualChunkSegments G fuel pairs).1[i]? = some (al, seg) → m ∈ seg →
        m ∈ (((buildManualChunks G fuel pairs).1.lookup al).getD [])
        ∧ (∀ (j : Nat) (al' : String) (seg' : List Nat),
            (manualChunkSegments G fuel pairs).1[j]? = some (al', seg') →
            m ∈ seg' → j = i)
        ∧ (∀ j : Nat, i < j →
            m ∈ (manualSegmentsFrom G fuel (pairs.take j)
              (dedupList (pairs.map Prod.fst))).2)
        ∧ (∀ al' : String,
            m ∈ (((buildManualChunks G fuel pairs).1.lookup al').getD [])
              → al' = al)) := by
  have hM : ∀ p ∈ pairs, p.1 ∈ dedupList (pairs.map Prod.fst) := fun p hp =>
    (mem_dedupList _ _).2 (List.mem_map_of_mem Prod.fst hp)
  have hdec : ∀ al : String,
      (((buildManualChunks G fuel pairs).1.lookup al).getD [])
        = (((manualChunkSegments G fuel pairs).1.filter
            (fun q => q.1 == al)).map Prod.snd).flatten := by
    intro al
    have h := (buildManual_fold_segments G fuel pairs []
      (dedupList (pairs.map Prod.fst))).2 al
    rw [buildManualChunks, manualChunkSegments]
    simpa [List.lookup] using h
  have halign : ∀ i : Nat, ((manualChunkSegments G fuel pairs).1[i]?).map Prod.fst
      = (pairs[i]?).map Prod.snd := fun i =>
    manualSegmentsFrom_align G fuel pairs (dedupList (pairs.map Prod.fst)) i
  have hnodup : (((buildManualChunks G fuel pairs).1.map Prod.snd).flatten).Nodup := by
    rw [List.nodup_iff_count_le_one]
    intro x
    rw [buildManualChunks]
    refine buildManual_fold_counts G fuel pairs [] (dedupList (pairs.map Prod.fst))
      hkeys (by simp) (by simp) hM (by simp) x
  refine ⟨halign, hdec, hnodup, ?_⟩
  intro i al seg m hi hm
  have hi' : (manualSegmentsFrom G fuel pairs (dedupList (pairs.map Prod.fst))).1[i]?
      = some (al, seg) := hi
  have huniq : ∀ (j : Nat) (al' : String) (seg' : List Nat),
      (manualChunkSegments G fuel pairs).1[j]? = some (al', seg') → m ∈ seg' → j = i := by
    intro j al' seg' hj hm'
    have hj' : (manualSegmentsFrom G fuel pairs (dedupList (pairs.map Prod.fst))).1[j]?
        = some (al', seg') := hj
    rcases Nat.lt_trichotomy i j with h | h | h
    · exact absurd hm' (manualSegmentsFrom_disjoint G fuel pairs _ hM hkeys i j
        al al' seg seg' m h hi' hj' hm)
    · exact h.symm
    · exact absurd hm (manualSegmentsFrom_disjoint G fuel pairs _ hM hkeys j i
        al' al seg' seg m h hj' hi' hm')
  have hmem : m ∈ (((buildManualChunks G fuel pairs).1.lookup al).getD []) := by
    rw [hdec al]
    have hseg_mem : (al, seg) ∈ (manualChunkSegments G fuel pairs).1 :=
      List.getElem?_mem hi
    have hfil : (al, seg) ∈ (manualChunkSegments G fuel pairs).1.filter
        (fun q => q.1 == al) :=
      List.mem_filter.2 ⟨hseg_mem, by simp⟩
    exact List.mem_flatten.2 ⟨seg, List.mem_map_of_mem Prod.snd hfil, hm⟩
  have hexcl : ∀ al' : String,
      m ∈ (((buildManualChunks G fuel pairs).1.lookup al').getD []) → al' = al := by
    intro al' hmem'
    rw [hdec al'] at hmem'
    rcases List.mem_flatten.1 hmem' with ⟨l, hl, hml⟩
    rcases List.mem_map.1 hl with ⟨q, hq, rfl⟩
    have hq2 := List.mem_filter.1 hq
    obtain ⟨a2, s2⟩ := q
    have ha2 : a2 = al' := by simpa using hq2.2
    rcases exists_index_of_mem hq2.1 with ⟨j, hj⟩
    have hji : j = i := huniq j a2 s2 hj hml
    subst hji
    rw [hi] at hj
    simp only [Option.some.injEq, Prod.mk.injEq] at hj
    rw [← ha2]
    exact hj.1.symm
  exact ⟨hmem, huniq,
    fun j hij => manualSegmentsFrom_marked_after G fuel pairs _ i j al seg m hij hi' hm,
    hexcl⟩

/-- Witness for C6: three alias pairs with the alias `"a"` repeated and
module `3` statically reachable from the entries of both aliases; the
two `"a"` entries share one bucket in discovery order and the shared
module `3` lands only in the bucket of the first alias. -/
theorem c6_manual_chunk_first_alias_wins_witness :
    (([(0, "a"), (1, "b"), (2, "a")] : List (Nat × String)).map Prod.fst).Nodup
    ∧ (buildManualChunks exampleGraphC6 10 [(0, "a"), (1, "b"), (2, "a")]).1
        = [("a", [0, 3, 2, 4]), ("b", [1])]
    ∧ (manualChunkSegments exampleGraphC6 10 [(0, "a"), (1, "b"), (2, "a")]).1
        = [("a", [0, 3]), ("b", [1]), ("a", [2, 4])]
    ∧ 3 ∈ (((buildManualChunks exampleGraphC6 10
          [(0, "a"), (1, "b"), (2, "a")]).1.lookup ("a")).getD [])
    ∧ (∀ al' : String,
        3 ∈ (((buildManualChunks exampleGraphC6 10
          [(0, "a"), (1, "b"), (2, "a")]).1.lookup al').getD []) → al' = ("a")) := by
  refine ⟨by decide, by decide, by decide, ?_, ?_⟩
  · exact ((c6_manual_chunk_first_alias_wins exampleGraphC6 10
      [(0, "a"), (1, "b"), (2, "a")] (by decide)).2.2.2 0 ("a") [0, 3] 3
      (by decide) (by decide)).1
  · exact fun al' => ((c6_manual_chunk_first_alias_wins exampleGraphC6 10
      [(0, "a"), (1, "b"), (2, "a")] (by decide)).2.2.2 0 ("a") [0, 3] 3
      (by decide) (by decide)).2.2.2 al'

/- ### Claim C1: side-effect safety of merging -/

/-- When every `'X'` of the second signature is covered by the first,
merging returns the first signature unchanged. -/
theorem mergeSignatures_eq_left (a b : List Char)
    (ha : ∀ x ∈ a, x = CHAR_DEPENDENT ∨ x = CHAR_INDEPENDENT)
    (hsub : ∀ i : Nat, b[i]? = some CHAR_DEPENDENT → a[i]? = some CHAR_DEPENDENT) :
    mergeSignatures a b = a := by
  apply List.ext_getElem?
  intro n
  rw [getElem?_mergeSignatures]
  rcases Nat.lt_or_ge n a.length with hn | hn
  · obtain ⟨x, hx⟩ := exists_getElem_eq_some (l := a) (n := n) hn
    rw [hx]
    simp only [Option.map_some']
    rcases ha x (List.getElem?_mem hx) with h1 | h1
    · rw [h1]; simp
    · have hbn : ¬(b[n]? = some CHAR_DEPENDENT) := by
        intro hb
        have := hsub n hb
        rw [hx] at this
        injection this with this
        rw [h1] at this
        exact absurd this (by decide)
      rw [if_neg ?_, h1]
      rintro (h2 | h2)
      · rw [h1] at h2; exact absurd h2 (by decide)
      · exact hbn h2
  · rw [List.getElem?_eq_none hn]
    rfl

/-- When the signatures have equal length and every `'X'` of the first
is covered by the second, merging returns the second signature. -/
theorem mergeSignatures_eq_right (a b : List Char) (hlen : a.length = b.length)
    (hb : ∀ x ∈ b, x = CHAR_DEPENDENT ∨ x = CHAR_INDEPENDENT)
    (hsub : ∀ i : Nat, a[i]? = some CHAR_DEPENDENT → b[i]? = some CHAR_DEPENDENT) :
    mergeSignatures a b = b := by
  apply List.ext_getElem?
  intro n
  rw [getElem?_mergeSignatures]
  rcases Nat.lt_or_ge n a.length with hn | hn
  · obtain ⟨x, hx⟩ := exists_getElem_eq_some (l := a) (n := n) hn
    obtain ⟨y, hy⟩ := exists_getElem_eq_some (l := b) (n := n) (hlen ▸ hn)
    rw [hx, hy]
    simp only [Option.map_some']
    rcases hb y (List.getElem?_mem hy) with h1 | h1
    · rw [if_pos]
      · rw [h1]
      · right; rw [h1]
    · have hxn : ¬(x = CHAR_DEPENDENT) := by
        intro h2
        have := hsub n (by rw [hx, h2])
        rw [hy] at this
        injection this with this
        rw [h1] at this
        exact absurd this (by decide)
      rw [if_neg ?_, h1]
      rintro (h2 | h2)
      · exact hxn h2
      · injection h2 with h2
        rw [h1] at h2
        exact absurd h2 (by decide)
  · rw [List.getElem?_eq_none hn, List.getElem?_eq_none (hlen ▸ hn)]
    rfl

/-- The per-chunk invariant of the merge passes: the signature has the
canonical length and alphabet, the `pure` flag agrees with the modules,
and the chunk signature of every side-effect member is that member's
original signature. -/
def WChunk (G : ModuleGraph) (L : Nat) (origSig : Nat → List Char)
    (c : ChunkDescription) : Prop :=
  c.signature.length = L ∧
  (∀ x ∈ c.signature, x = CHAR_DEPENDENT ∨ x = CHAR_INDEPENDENT) ∧
  c.pure = c.modules.all (fun m => !G.hasEffects m) ∧
  (∀ m ∈ c.modules, G.hasEffects m = true → c.signature = origSig m)

/-- The partition invariant: every chunk sits in a bucket of its purity
and satisfies the per-chunk invariant. -/
def PartitionInv (G : ModuleGraph) (L : Nat) (origSig : Nat → List Char)
    (P : ChunkPartition) : Prop :=
  ∀ b : BucketId, ∀ c ∈ P.get b, c.pure = b.isPure ∧ WChunk G L origSig c

theorem get_modify (P : ChunkPartition) (b b2 : BucketId)
    (f : List ChunkDescription → List ChunkDescription) :
    (P.modify b f).get b2 = if b2 = b then f (P.get b2) else P.get b2 := by
  cases b <;> cases b2 <;> simp [ChunkPartition.get, ChunkPartition.modify]

theorem isPure_getChunksInPartitionId (min : Int) (c : ChunkDescription) :
    (getChunksInPartitionId min c).isPure = c.pure := by
  unfold getChunksInPartitionId
  by_cases h : (c.size : Int) < min
  · rw [if_pos h]; cases hc : c.pure <;> simp [hc, BucketId.isPure]
  · rw [if_neg h]; cases hc : c.pure <;> simp [hc, BucketId.isPure]

theorem mem_get_modify_filter (P : ChunkPartition) (bb : BucketId)
    (pred : ChunkDescription → Bool) (b : BucketId) (c : ChunkDescription)
    (hc : c ∈ (P.modify bb (fun l => l.filter pred)).get b) : c ∈ P.get b := by
  rw [get_modify] at hc
  by_cases hb : b = bb
  · rw [if_pos hb] at hc
    exact (List.mem_filter.1 hc).1
  · rwa [if_neg hb] at hc

theorem mem_get_modify_append (P : ChunkPartition) (bb : BucketId)
    (nc : ChunkDescription) (b : BucketId) (c : ChunkDescription)
    (hc : c ∈ (P.modify bb (fun l => l ++ [nc])).get b) :
    (c = nc ∧ b = bb) ∨ c ∈ P.get b := by
  rw [get_modify] at hc
  by_cases hb : b = bb
  · rw [if_pos hb] at hc
    rcases List.mem_append.1 hc with hc | hc
    · exact Or.inr hc
    · simp only [List.mem_singleton] at hc
      exact Or.inl ⟨hc, hb⟩
  · rw [if_neg hb] at hc
    exact Or.inr hc

/-- One merge step preserves the partition invariant, provided the
target buckets are all pure whenever the iterated source bucket is
impure (which is how both passes of `getOptimizedChunks` invoke it). -/
theorem applyMerge_inv (G : ModuleGraph) (L : Nat) (origSig : Nat → List Char)
    (min : Int) (srcB : BucketId) (tgtBs : List BucketId)
    (hcfg : srcB.isPure = false → ∀ b ∈ tgtBs, b.isPure = true)
    (P : ChunkPartition) (mergedChunk closestChunk : ChunkDescription)
    (hP : PartitionInv G L origSig P)
    (hsrc : mergedChunk ∈ P.get srcB)
    (hft : findTarget mergedChunk ((tgtBs.map P.get).flatten) = some closestChunk) :
    PartitionInv G L origSig (applyMerge min srcB mergedChunk closestChunk P) := by
  obtain ⟨hsP, hsW⟩ := hP srcB mergedChunk hsrc
  obtain ⟨hclmem, hfin⟩ := findTarget_spec mergedChunk _ closestChunk hft
  obtain ⟨lc, hlc, hclget⟩ : ∃ lb ∈ tgtBs, closestChunk ∈ P.get lb := by
    rcases List.mem_flatten.1 hclmem with ⟨l, hl, hcl⟩
    rcases List.mem_map.1 hl with ⟨bb, hbb, rfl⟩
    exact ⟨bb, hbb, hcl⟩
  obtain ⟨hcP, hcW⟩ := hP lc closestChunk hclget
  have hnew : WChunk G L origSig (mergeInto mergedChunk closestChunk) := by
    obtain ⟨hsL, hsA, hsPure, hsOrig⟩ := hsW
    obtain ⟨hcL, hcA, hcPure, hcOrig⟩ := hcW
    have hpurefield : (mergeInto mergedChunk closestChunk).pure =
        (mergeInto mergedChunk closestChunk).modules.all (fun m => !G.hasEffects m) := by
      simp only [mergeInto, List.all_append]
      rw [← hsPure, ← hcPure]
    by_cases hsp : mergedChunk.pure = true
    · by_cases hcp : closestChunk.pure = true
      · refine ⟨?_, ?_, hpurefield, ?_⟩
        · simp only [mergeInto]
          rw [length_mergeSignatures, hsL]
        · simp only [mergeInto]
          exact mem_mergeSignatures _ _
        · intro m hm heff
          simp only [mergeInto] at hm
          exfalso
          rcases List.mem_append.1 hm with hm | hm
          · rw [hcp] at hcPure
            have := List.all_eq_true.1 hcPure.symm m hm
            simp [heff] at this
          · rw [hsp] at hsPure
            have := List.all_eq_true.1 hsPure.symm m hm
            simp [heff] at this
      · have hcpf : closestChunk.pure = false := by
          cases h : closestChunk.pure
          · rfl
          · exact absurd h hcp
        have hdist : getSignatureDistance mergedChunk.signature closestChunk.signature true
            ≠ ⊤ := by
          have heq : mergeDistance mergedChunk closestChunk =
              getSignatureDistance mergedChunk.signature closestChunk.signature true := by
            simp [mergeDistance, hsp, hcpf]
          rwa [heq] at hfin
        have hsub := gsdAux_ne_top_subset mergedChunk.signature closestChunk.signature 0 hdist
        have hsig : mergeSignatures mergedChunk.signature closestChunk.signature =
            closestChunk.signature :=
          mergeSignatures_eq_right _ _ (by rw [hsL, hcL]) hcA hsub
        refine ⟨?_, ?_, hpurefield, ?_⟩
        · simp only [mergeInto]
          rw [hsig, hcL]
        · simp only [mergeInto]
          rw [hsig]
          exact hcA
        · intro m hm heff
          simp only [mergeInto] at hm ⊢
          rw [hsig]
          rcases List.mem_append.1 hm with hm | hm
          · exact hcOrig m hm heff
          · exfalso
            rw [hsp] at hsPure
            have := List.all_eq_true.1 hsPure.symm m hm
            simp [heff] at this
    · have hspf : mergedChunk.pure = false := by
        cases h : mergedChunk.pure
        · rfl
        · exact absurd h hsp
      have hsrcBpure : srcB.isPure = false := by rw [← hsP, hspf]
      have hcp : closestChunk.pure = true := by
        rw [hcP]
        exact hcfg hsrcBpure lc hlc
      have hdist : getSignatureDistance closestChunk.signature mergedChunk.signature true
          ≠ ⊤ := by
        have heq : mergeDistance mergedChunk closestChunk =
            getSignatureDistance closestChunk.signature mergedChunk.signature true := by
          simp [mergeDistance, hspf]
        rwa [heq] at hfin
      have hsub := gsdAux_ne_top_subset closestChunk.signature mergedChunk.signature 0 hdist
      have hsig : mergeSignatures mergedChunk.signature closestChunk.signature =
          mergedChunk.signature :=
        mergeSignatures_eq_left _ _ hsA hsub
      refine ⟨?_, ?_, hpurefield, ?_⟩
      · simp only [mergeInto]
        rw [hsig, hsL]
      · simp only [mergeInto]
        rw [hsig]
        exact hsA
      · intro m hm heff
        simp only [mergeInto] at hm ⊢
        rw [hsig]
        rcases List.mem_append.1 hm with hm | hm
        · exfalso
          rw [hcp] at hcPure
          have := List.all_eq_true.1 hcPure.symm m hm
          simp [heff] at this
        · exact hsOrig m hm heff
  intro b c hc
  simp only [applyMerge] at hc
  rcases mem_get_modify_append _ _ _ _ _ hc with ⟨rfl, rfl⟩ | hc2
  · exact ⟨(isPure_getChunksInPartitionId min _).symm, hnew⟩
  · exact hP b c (mem_get_modify_filter _ _ _ _ _ (mem_get_modify_filter _ _ _ _ _ hc2))

/-- Both merge passes preserve the partition invariant. -/
theorem mergeChunksAux_preserves (G : ModuleGraph) (L : Nat) (origSig : Nat → List Char)
    (min : Int) (srcB : BucketId) (tgtBs : List BucketId)
    (hcfg : srcB.isPure = false → ∀ b ∈ tgtBs, b.isPure = true) :
    ∀ (fuel : Nat) (P : ChunkPartition) (pending : List Nat),
      PartitionInv G L origSig P →
      PartitionInv G L origSig (mergeChunksAux min srcB tgtBs fuel P pending) := by
  intro fuel
  induction fuel with
  | zero =>
    intro P pending hP
    exact hP
  | succ fuel ih =>
    intro P pending hP
    cases pending with
    | nil => exact hP
    | cons h rest =>
      cases hfind : (P.get srcB).find? (fun c => c.id == h) with
      | none =>
        have hstep : mergeChunksAux min srcB tgtBs (fuel + 1) P (h :: rest)
            = mergeChunksAux min srcB tgtBs fuel P rest := by
          simp only [mergeChunksAux, hfind]
        rw [hstep]
        exact ih P rest hP
      | some mergedChunk =>
        cases hft : findTarget mergedChunk ((tgtBs.map P.get).flatten) with
        | none =>
          have hstep : mergeChunksAux min srcB tgtBs (fuel + 1) P (h :: rest)
              = mergeChunksAux min srcB tgtBs fuel P rest := by
            simp only [mergeChunksAux, hfind, hft]
          rw [hstep]
          exact ih P rest hP
        | some closestChunk =>
          have hstep : mergeChunksAux min srcB tgtBs (fuel + 1) P (h :: rest)
              = mergeChunksAux min srcB tgtBs fuel
                  (applyMerge min srcB mergedChunk closestChunk P)
                  (applyMergePending min srcB mergedChunk closestChunk rest) := by
            simp only [mergeChunksAux, hfind, hft]
          rw [hstep]
          exact ih _ _ (applyMerge_inv G L origSig min srcB tgtBs hcfg P mergedChunk
            closestChunk hP (List.mem_of_find?_eq_some hfind) hft)

theorem mem_insertBySize (c d : ChunkDescription) :
    ∀ l : List ChunkDescription, c ∈ insertBySize d l ↔ c = d ∨ c ∈ l := by
  intro l
  induction l with
  | nil => simp [insertBySize]
  | cons e es ih =>
    rw [insertBySize]
    by_cases he : e.size ≤ d.size
    · rw [if_pos he]
      simp only [List.mem_cons, ih] <;> tauto
    · rw [if_neg he]
      simp only [List.mem_cons] <;> tauto

theorem mem_sortBySize (c : ChunkDescription) (l : List ChunkDescription) :
    c ∈ sortBySize l ↔ c ∈ l := by
  have key : ∀ (l acc : List ChunkDescription),
      c ∈ l.foldl (fun acc d => insertBySize d acc) acc ↔ c ∈ acc ∨ c ∈ l := by
    intro l
    induction l with
    | nil => intro acc; simp
    | cons d ds ih =>
      intro acc
      simp only [List.foldl_cons, ih, mem_insertBySize, List.mem_cons] <;> tauto
  simpa [sortBySize] using key l []

theorem mem_describeChunks (G : ModuleGraph) :
    ∀ (groups : List (List Char × List Nat)) (i : Nat) (c : ChunkDescription),
      c ∈ describeChunks G i groups →
      ∃ sig mods, (sig, mods) ∈ groups ∧ c.modules = mods ∧ c.signature = sig ∧
        c.pure = mods.all (fun m => !G.hasEffects m) := by
  intro groups
  induction groups with
  | nil => intro i c hc; simp [describeChunks] at hc
  | cons g rest ih =>
    intro i c hc
    obtain ⟨sig, mods⟩ := g
    rw [describeChunks] at hc
    rcases List.mem_cons.1 hc with rfl | hc
    · exact ⟨sig, mods, List.mem_cons_self _ _, rfl, rfl, rfl⟩
    · obtain ⟨sig2, mods2, h1, h2, h3, h4⟩ := ih (i + 1) c hc
      exact ⟨sig2, mods2, List.mem_cons_of_mem _ h1, h2, h3, h4⟩

theorem groups_keys_spec (aE : List Nat) :
    ∀ (l : List (Nat × List Nat)) (init : List (List Char × List Nat)),
      (∀ q ∈ init, ∃ es, buildSignature aE es = q.1) →
      ∀ q ∈ l.foldl (fun gs p => addToGroups gs (buildSignature aE p.2) p.1) init,
        ∃ es, buildSignature aE es = q.1 := by
  intro l
  induction l with
  | nil => intro init hinit q hq; exact hinit q hq
  | cons p rest ih =>
    intro init hinit q hq
    simp only [List.foldl_cons] at hq
    refine ih _ ?_ q hq
    intro q2 hq2
    rcases mem_addToGroups init _ _ q2 hq2 with h | ⟨h1, _⟩ | ⟨mods, _, h2, _⟩
    · exact hinit q2 h
    · exact ⟨p.2, h1.symm⟩
    · exact ⟨p.2, h2.symm⟩

/-- The partition produced by `getPartitionedChunks` from the signature
groups satisfies the merge invariant. -/
theorem getPartitionedChunks_inv (G : ModuleGraph) (aE : List Nat)
    (aem : List (Nat × List Nat)) (min : Int)
    (hkeys : (aem.map Prod.fst).Nodup) :
    PartitionInv G aE.length (fun m => buildSignature aE ((aem.lookup m).getD []))
      (getPartitionedChunks G (getChunkModulesBySignature aem aE) min) := by
  intro b c hc
  have hmem : c ∈ describeChunks G 0 (getChunkModulesBySignature aem aE) ∧
      c.pure = b.isPure := by
    cases b with
    | smallPure =>
      simp only [getPartitionedChunks, ChunkPartition.get] at hc
      rw [mem_sortBySize] at hc
      have h2 := List.mem_filter.1 hc
      refine ⟨h2.1, ?_⟩
      have h3 := h2.2
      simp only [Bool.and_eq_true, decide_eq_true_eq] at h3
      simp [BucketId.isPure, h3.2]
    | smallSideEffect =>
      simp only [getPartitionedChunks, ChunkPartition.get] at hc
      rw [mem_sortBySize] at hc
      have h2 := List.mem_filter.1 hc
      refine ⟨h2.1, ?_⟩
      have h3 := h2.2
      simp only [Bool.and_eq_true, Bool.not_eq_true', decide_eq_true_eq] at h3
      simp [BucketId.isPure, h3.2]
    | bigPure =>
      simp only [getPartitionedChunks, ChunkPartition.get] at hc
      rw [mem_sortBySize] at hc
      have h2 := List.mem_filter.1 hc
      refine ⟨h2.1, ?_⟩
      have h3 := h2.2
      simp only [Bool.and_eq_true, decide_eq_true_eq] at h3
      simp [BucketId.isPure, h3.2]
    | bigSideEffect =>
      simp only [getPartitionedChunks, ChunkPartition.get] at hc
      rw [mem_sortBySize] at hc
      have h2 := List.mem_filter.1 hc
      refine ⟨h2.1, ?_⟩
      have h3 := h2.2
      simp only [Bool.and_eq_true, Bool.not_eq_true', decide_eq_true_eq] at h3
      simp [BucketId.isPure, h3.2]
  obtain ⟨hdesc, hpure⟩ := hmem
  obtain ⟨sig, mods, hg, hcm, hcs, hcp⟩ := mem_describeChunks G _ 0 c hdesc
  have hkey : ∃ es, buildSignature aE es = sig := by
    have := groups_keys_spec aE aem [] (by simp)
    exact this (sig, mods) hg
  obtain ⟨es0, hes0⟩ := hkey
  refine ⟨hpure, ?_, ?_, ?_, ?_⟩
  · rw [hcs, ← hes0, buildSignature_length]
  · rw [hcs, ← hes0]
    exact mem_buildSignature aE es0
  · rw [hcp, hcm]
  · intro m hm _
    rw [hcm] at hm
    obtain ⟨es, hes, hsig⟩ := mem_getChunkModulesBySignature aem aE (sig, mods) hg m hm
    simp only at hsig
    show c.signature = buildSignature aE ((aem.lookup m).getD [])
    rw [lookup_eq_some_of_nodup aem m es hkeys hes]
    simp only [Option.getD_some]
    rw [hcs, ← hsig]

theorem mergeChunks_preserves (G : ModuleGraph) (L : Nat) (origSig : Nat → List Char)
    (min : Int) (srcB : BucketId) (tgtBs : List BucketId)
    (hcfg : srcB.isPure = false → ∀ b ∈ tgtBs, b.isPure = true)
    (P : ChunkPartition) (hP : PartitionInv G L origSig P) :
    PartitionInv G L origSig (mergeChunks min srcB tgtBs P) :=
  mergeChunksAux_preserves G L origSig min srcB tgtBs hcfg _ P _ hP

/-- Every chunk emitted by `getOptimizedChunks` satisfies the per-chunk
invariant, given that the initial partition does. -/
theorem getOptimizedChunks_inv (G : ModuleGraph) (L : Nat) (origSig : Nat → List Char)
    (groups : List (List Char × List Nat)) (min : Int)
    (h0 : PartitionInv G L origSig (getPartitionedChunks G groups min)) :
    ∀ C ∈ getOptimizedChunks G groups min, WChunk G L origSig C := by
  intro C hC
  have h1 := mergeChunks_preserves G L origSig min BucketId.smallSideEffect
    [BucketId.smallPure, BucketId.bigPure] (by decide) _ h0
  have h2 := mergeChunks_preserves G L origSig min BucketId.smallPure
    [BucketId.smallPure, BucketId.bigSideEffect, BucketId.bigPure]
    (fun h => absurd h (by decide)) _ h1
  have hdef : getOptimizedChunks G groups min =
      (mergeChunks min BucketId.smallPure
        [BucketId.smallPure, BucketId.bigSideEffect, BucketId.bigPure]
        (mergeChunks min BucketId.smallSideEffect [BucketId.smallPure, BucketId.bigPure]
          (getPartitionedChunks G groups min))).smallSideEffect ++
      ((mergeChunks min BucketId.smallPure
        [BucketId.smallPure, BucketId.bigSideEffect, BucketId.bigPure]
        (mergeChunks min BucketId.smallSideEffect [BucketId.smallPure, BucketId.bigPure]
          (getPartitionedChunks G groups min))).smallPure ++
      ((mergeChunks min BucketId.smallPure
        [BucketId.smallPure, BucketId.bigSideEffect, BucketId.bigPure]
        (mergeChunks min BucketId.smallSideEffect [BucketId.smallPure, BucketId.bigPure]
          (getPartitionedChunks G groups min))).bigSideEffect ++
      (mergeChunks min BucketId.smallPure
        [BucketId.smallPure, BucketId.bigSideEffect, BucketId.bigPure]
        (mergeChunks min BucketId.smallSideEffect [BucketId.smallPure, BucketId.bigPure]
          (getPartitionedChunks G groups min))).bigPure)) := by
    simp only [getOptimizedChunks]
    simp [List.append_assoc]
  rw [hdef] at hC
  rcases List.mem_append.1 hC with hC | hC
  · exact (h2 BucketId.smallSideEffect C hC).2
  rcases List.mem_append.1 hC with hC | hC
  · exact (h2 BucketId.smallPure C hC).2
  rcases List.mem_append.1 hC with hC | hC
  · exact (h2 BucketId.bigSideEffect C hC).2
  · exact (h2 BucketId.bigPure C hC).2

/-- C1: for every automatic chunk emitted by the size-driven merge and
every side-effect module it contains, the chunk's final signature is
exactly that module's original entry signature — the set of entries
that load the chunk equals exactly the entries that originally needed
each of its side-effect members, and no merge of either pass ever adds
an `'X'` position over a side-effect module. -/
theorem c1_side_effect_safety (G : ModuleGraph) (allEntries : List Nat)
    (aem : List (Nat × List Nat)) (minChunkSize : Int)
    (hmin : 0 < minChunkSize) (hkeys : (aem.map Prod.fst).Nodup) :
    ∀ C ∈ getOptimizedChunks G (getChunkModulesBySignature aem allEntries) minChunkSize,
      ∀ m ∈ C.modules, G.hasEffects m = true →
        ∀ es, (m, es) ∈ aem → C.signature = buildSignature allEntries es := by
  intro C hC m hm heff es hes
  have h0 := getPartitionedChunks_inv G allEntries aem minChunkSize hkeys
  have hW := getOptimizedChunks_inv G allEntries.length
    (fun m => buildSignature allEntries ((aem.lookup m).getD [])) _ minChunkSize h0 C hC
  obtain ⟨_, _, _, horig⟩ := hW
  have hthis := horig m hm heff
  simp only at hthis
  rwa [lookup_eq_some_of_nodup aem m es hkeys hes, Option.getD_some] at hthis

/-- Witness for C1: a single side-effect chunk keeps its own signature
through the (vacuous) merge passes. -/
theorem c1_side_effect_safety_witness :
    (⟨0, [5], false, ['X'], 5⟩ : ChunkDescription).signature = buildSignature [0] [0] :=
  c1_side_effect_safety
    { exampleGraphA with hasEffects := fun m => m = 5 } [0] [(5, [0])] 3
    (by decide) (by decide)
    ⟨0, [5], false, ['X'], 5⟩ (by decide) 5 (by decide) (by decide) [0] (by decide)
